import Mathlib

set_option maxRecDepth 100000

/-!
Shallow embedding of the planning pipeline of `photo_normalizer/cli.py`
(capture-time resolution, plan sorting, per-second sequencing, target-path
formatting and the `ensure_unique` allocator), together with proofs of the
behavioural claims about it.

Modelling conventions:
* Python `str` values are modelled as `List Char` (a Python string is a
  sequence of code points).
* Fallible Python code (`try`/`except`, `re` failures, `dict` misses) is
  modelled with `Option`.
* The destination filesystem observed by `Path.exists` is modelled as the
  finite list of paths that exist at planning time (the code performs no
  writes while planning, so the list is constant during a run).
* `datetime.datetime` is a seven-field record compared lexicographically.
-/

namespace PhotoNormalizer

/-! ### Decimal rendering of naturals (Python `str(int)` / format specifiers) -/

/-- Decimal digit character for a value below ten. -/
def decChar : Nat → Char
  | 0 => '0' | 1 => '1' | 2 => '2' | 3 => '3' | 4 => '4'
  | 5 => '5' | 6 => '6' | 7 => '7' | 8 => '8' | _ => '9'

/-- Numeric value of a digit character. -/
def digitVal (c : Char) : Nat := c.toNat - 48

/-- Fuel-driven decimal rendering; `fuel > n` always suffices. -/
def natReprAux : Nat → Nat → List Char
  | 0, _ => []
  | fuel + 1, n =>
    if n < 10 then [decChar n] else natReprAux fuel (n / 10) ++ [decChar (n % 10)]

/-- Decimal rendering of a natural number, as Python's `str` produces it. -/
def natRepr (n : Nat) : List Char := natReprAux (n + 1) n

/-- Numeric value of a digit string (left fold, most significant first). -/
def digitsVal (l : List Char) : Nat := l.foldl (fun acc c => acc * 10 + digitVal c) 0

/-- Zero padding to a minimum width, as Python's `{:0wd}` format does. -/
def padZ (w n : Nat) : List Char := List.replicate (w - (natRepr n).length) '0' ++ natRepr n

/-- Python `{:04d}`. -/
def pad4 (n : Nat) : List Char := padZ 4 n

/-- Python `{:02d}` (also the zero-padded two-digit strftime fields). -/
def pad2 (n : Nat) : List Char := padZ 2 n

theorem natReprAux_congr : ∀ f₁ n, n < f₁ → ∀ f₂, n < f₂ → natReprAux f₁ n = natReprAux f₂ n := by
  intro f₁
  induction f₁ with
  | zero => intro n h; omega
  | succ f ih =>
    intro n hn f₂ hn₂
    match f₂, hn₂ with
    | g + 1, _ =>
      simp only [natReprAux]
      by_cases h10 : n < 10
      · simp [h10]
      · simp only [h10, if_false]
        have hdiv : n / 10 < n := Nat.div_lt_self (by omega) (by omega)
        rw [ih (n / 10) (by omega) g (by omega)]

theorem foldl_digits_natReprAux (f : Nat) (n : Nat) (h : n < f) :
    ∀ acc, (natReprAux f n).foldl (fun acc c => acc * 10 + digitVal c) acc =
      acc * 10 ^ (natReprAux f n).length + n := by
  induction f generalizing n with
  | zero => omega
  | succ f ih =>
    intro acc
    simp only [natReprAux]
    by_cases h10 : n < 10
    · simp only [h10, if_true, List.foldl_cons, List.foldl_nil, List.length_cons,
        List.length_nil, pow_one, zero_add]
      have : digitVal (decChar n) = n := by
        interval_cases n <;> rfl
      rw [this]
    · simp only [h10, if_false, List.foldl_append, List.foldl_cons, List.foldl_nil,
        List.length_append, List.length_cons, List.length_nil]
      have hdiv : n / 10 < n := Nat.div_lt_self (by omega) (by omega)
      rw [ih (n / 10) (by omega) acc]
      have hm : digitVal (decChar (n % 10)) = n % 10 := by
        have : n % 10 < 10 := Nat.mod_lt _ (by omega)
        interval_cases h : n % 10 <;> rfl
      rw [hm]
      have hpow : 10 ^ ((natReprAux f (n / 10)).length + (0 + 1)) =
          10 ^ (natReprAux f (n / 10)).length * 10 := by
        rw [Nat.zero_add, pow_succ]
      rw [hpow]
      have := Nat.div_add_mod n 10
      ring_nf
      omega

/-- Parsing a rendered natural recovers the value: rendering is injective. -/
theorem digitsVal_natRepr (n : Nat) : digitsVal (natRepr n) = n := by
  have := foldl_digits_natReprAux (n + 1) n (Nat.lt_succ_self n) 0
  simpa [digitsVal, natRepr] using this

theorem natRepr_injective : Function.Injective natRepr := by
  intro a b h
  have : digitsVal (natRepr a) = digitsVal (natRepr b) := by rw [h]
  rwa [digitsVal_natRepr, digitsVal_natRepr] at this

theorem foldl_digits_zeros (k : Nat) :
    ∀ l : List Char, (List.replicate k '0' ++ l).foldl (fun acc c => acc * 10 + digitVal c) 0 =
      l.foldl (fun acc c => acc * 10 + digitVal c) 0 := by
  induction k with
  | zero => intro l; rfl
  | succ k ih =>
    intro l
    simp only [List.replicate_succ, List.cons_append, List.foldl_cons]
    have h0 : digitVal '0' = 0 := rfl
    rw [h0]
    exact ih l

/-- Zero padding does not change the parsed value. -/
theorem digitsVal_padZ (w n : Nat) : digitsVal (padZ w n) = n := by
  unfold padZ digitsVal
  rw [foldl_digits_zeros]
  exact digitsVal_natRepr n

theorem padZ_injective (w : Nat) : Function.Injective (padZ w) := by
  intro a b h
  have : digitsVal (padZ w a) = digitsVal (padZ w b) := by rw [h]
  rwa [digitsVal_padZ, digitsVal_padZ] at this

theorem natReprAux_length_pos (f n : Nat) (h : n < f) : (natReprAux f n).length ≥ 1 := by
  match f, h with
  | f + 1, _ =>
    simp only [natReprAux]
    by_cases h10 : n < 10 <;> simp [h10]

theorem natRepr_ne_nil (n : Nat) : natRepr n ≠ [] := by
  have := natReprAux_length_pos (n + 1) n (Nat.lt_succ_self n)
  intro h
  rw [natRepr] at h
  rw [h] at this
  simp at this

theorem padZ_ne_nil (w n : Nat) : padZ w n ≠ [] := by
  unfold padZ
  intro h
  rcases List.append_eq_nil.mp h with ⟨_, h2⟩
  exact natRepr_ne_nil n h2

theorem decChar_isDigit (n : Nat) (h : n < 10) : (decChar n).isDigit = true := by
  interval_cases n <;> rfl

theorem natReprAux_all_digits (f n : Nat) (h : n < f) :
    ∀ c ∈ natReprAux f n, c.isDigit = true := by
  induction f generalizing n with
  | zero => omega
  | succ f ih =>
    simp only [natReprAux]
    by_cases h10 : n < 10
    · simp only [h10, if_true, List.mem_singleton]
      intro c hc; subst hc; exact decChar_isDigit n h10
    · simp only [h10, if_false]
      intro c hc
      rcases List.mem_append.mp hc with h1 | h2
      · have hdiv : n / 10 < n := Nat.div_lt_self (by omega) (by omega)
        exact ih (n / 10) (by omega) c h1
      · rw [List.mem_singleton] at h2; subst h2
        exact decChar_isDigit _ (Nat.mod_lt _ (by omega))

theorem natRepr_all_digits (n : Nat) : ∀ c ∈ natRepr n, c.isDigit = true :=
  natReprAux_all_digits (n + 1) n (Nat.lt_succ_self n)

theorem padZ_all_digits (w n : Nat) : ∀ c ∈ padZ w n, c.isDigit = true := by
  intro c hc
  rcases List.mem_append.mp hc with h1 | h2
  · rw [List.eq_of_mem_replicate h1]; rfl
  · exact natRepr_all_digits n c h2

theorem natRepr_no_underscore (n : Nat) : '_' ∉ natRepr n := by
  intro h
  have := natRepr_all_digits n '_' h
  simp [Char.isDigit] at this

/-! ### datetime.datetime values

A `datetime.datetime` is modelled by its seven attributes; Python compares such
values lexicographically on `(year, month, day, hour, minute, second, microsecond)`. -/

/-- Model of a Python `datetime.datetime` value. -/
@[ext]
structure DateTime where
  year : Nat
  month : Nat
  day : Nat
  hour : Nat
  minute : Nat
  second : Nat
  microsecond : Nat
deriving DecidableEq

/-- Python `<` on datetimes: lexicographic on the seven attributes. -/
def DateTime.ltB (a b : DateTime) : Bool :=
  decide (a.year < b.year) || (decide (a.year = b.year) &&
  (decide (a.month < b.month) || (decide (a.month = b.month) &&
  (decide (a.day < b.day) || (decide (a.day = b.day) &&
  (decide (a.hour < b.hour) || (decide (a.hour = b.hour) &&
  (decide (a.minute < b.minute) || (decide (a.minute = b.minute) &&
  (decide (a.second < b.second) || (decide (a.second = b.second) &&
  decide (a.microsecond < b.microsecond))))))))))))

/-- Model of `capture_dt.replace(microsecond=0)`. -/
def DateTime.truncSec (d : DateTime) : DateTime := { d with microsecond := 0 }

theorem DateTime.ltB_irrefl (a : DateTime) : DateTime.ltB a a = false := by
  simp [DateTime.ltB]

theorem DateTime.ltB_asymm {a b : DateTime} (h : DateTime.ltB a b = true) :
    DateTime.ltB b a = false := by
  cases a; cases b
  simp only [DateTime.ltB, Bool.or_eq_true, Bool.and_eq_true, decide_eq_true_eq,
    Bool.or_eq_false_iff, Bool.and_eq_false_iff, decide_eq_false_iff_not] at *
  omega

theorem DateTime.ltB_trans {a b c : DateTime} (h₁ : DateTime.ltB a b = true)
    (h₂ : DateTime.ltB b c = true) : DateTime.ltB a c = true := by
  cases a; cases b; cases c
  simp only [DateTime.ltB, Bool.or_eq_true, Bool.and_eq_true, decide_eq_true_eq] at *
  omega

theorem DateTime.eq_of_not_ltB {a b : DateTime} (h₁ : DateTime.ltB a b = false)
    (h₂ : DateTime.ltB b a = false) : a = b := by
  cases a; cases b
  simp only [DateTime.ltB, Bool.or_eq_false_iff, Bool.and_eq_false_iff,
    decide_eq_false_iff_not, DateTime.mk.injEq] at *
  omega

/-- Truncation to whole seconds is monotone with respect to the datetime order. -/
theorem DateTime.truncSec_mono {a b : DateTime} (h : DateTime.ltB b a = false) :
    DateTime.ltB (DateTime.truncSec b) (DateTime.truncSec a) = false := by
  cases a; cases b
  simp only [DateTime.ltB, DateTime.truncSec, Bool.or_eq_false_iff, Bool.and_eq_false_iff,
    decide_eq_false_iff_not] at *
  omega

theorem DateTime.truncSec_idem (d : DateTime) :
    DateTime.truncSec (DateTime.truncSec d) = DateTime.truncSec d := rfl

/-! ### Python string order (code-point lexicographic) -/

/-- Python `<` on strings: lexicographic comparison by code point. -/
def strLtB : List Char → List Char → Bool
  | [], [] => false
  | [], _ :: _ => true
  | _ :: _, [] => false
  | a :: s, b :: t =>
    if a.toNat < b.toNat then true
    else if b.toNat < a.toNat then false
    else strLtB s t

theorem strLtB_asymm : ∀ {s t : List Char}, strLtB s t = true → strLtB t s = false
  | [], [], h => by simp [strLtB] at h
  | [], _ :: _, _ => rfl
  | _ :: _, [], h => by simp [strLtB] at h
  | a :: s, b :: t, h => by
    simp only [strLtB] at *
    by_cases hab : a.toNat < b.toNat
    · simp [hab, Nat.lt_asymm hab, show ¬ b.toNat < a.toNat from Nat.lt_asymm hab]
    · by_cases hba : b.toNat < a.toNat
      · simp [hab, hba] at h
      · simp only [hab, hba, if_false] at h ⊢
        exact strLtB_asymm h

theorem strLtB_trans : ∀ {s t u : List Char},
    strLtB s t = true → strLtB t u = true → strLtB s u = true
  | [], [], _, h₁, _ => by simp [strLtB] at h₁
  | [], _ :: _, [], _, h₂ => by simp [strLtB] at h₂
  | [], _ :: _, _ :: _, _, _ => rfl
  | _ :: _, [], _, h₁, _ => by simp [strLtB] at h₁
  | _ :: _, _ :: _, [], _, h₂ => by simp [strLtB] at h₂
  | a :: s, b :: t, c :: u, h₁, h₂ => by
    simp only [strLtB] at *
    by_cases hab : a.toNat < b.toNat <;> by_cases hbc : b.toNat < c.toNat
    · simp [Nat.lt_trans hab hbc]
    · simp only [hbc, if_false] at h₂
      by_cases hcb : c.toNat < b.toNat
      · simp [hcb] at h₂
      · have hbc' : b.toNat = c.toNat := by omega
        simp [hab, ← hbc']
    · simp only [hab, if_false] at h₁
      by_cases hba : b.toNat < a.toNat
      · simp [hba] at h₁
      · have hab' : a.toNat = b.toNat := by omega
        simp [hab' ▸ hbc]
    · simp only [hab, hbc, if_false] at h₁ h₂
      by_cases hba : b.toNat < a.toNat
      · simp [hba] at h₁
      · by_cases hcb : c.toNat < b.toNat
        · simp [hcb] at h₂
        · simp only [hba, hcb, if_false] at h₁ h₂
          have hac : ¬ a.toNat < c.toNat ∧ ¬ c.toNat < a.toNat := by omega
          simp only [hac.1, hac.2, if_false]
          exact strLtB_trans h₁ h₂

theorem Char.eq_of_toNat_eq {a b : Char} (h : a.toNat = b.toNat) : a = b := by
  exact Char.ext (UInt32.toNat.inj h)

theorem strLtB_connex : ∀ {s t : List Char},
    strLtB s t = false → strLtB t s = false → s = t
  | [], [], _, _ => rfl
  | [], _ :: _, h₁, _ => by simp [strLtB] at h₁
  | _ :: _, [], _, h₂ => by simp [strLtB] at h₂
  | a :: s, b :: t, h₁, h₂ => by
    simp only [strLtB] at h₁ h₂
    by_cases hab : a.toNat < b.toNat
    · simp [hab] at h₁
    · by_cases hba : b.toNat < a.toNat
      · simp [hba] at h₂
      · simp only [hab, hba, if_false] at h₁ h₂
        have hco : a = b := Char.eq_of_toNat_eq (by omega)
        rw [hco, strLtB_connex h₁ h₂]

/-! ### Calendar validation (the checks the `datetime` constructor performs) -/

/-- Gregorian leap-year rule. -/
def isLeap (y : Nat) : Bool := y % 4 == 0 && (y % 100 != 0 || y % 400 == 0)

/-- Number of days in a month. -/
def daysInMonth (y m : Nat) : Nat :=
  if m = 2 then (if isLeap y then 29 else 28)
  else if m = 4 ∨ m = 6 ∨ m = 9 ∨ m = 11 then 30
  else 31

/-- Validation performed by the `datetime` constructor; a failure raises
`ValueError`, which every caller in the source catches. -/
def validDT (y m d h mi s : Nat) : Bool :=
  decide (1 ≤ y) && decide (y ≤ 9999) && decide (1 ≤ m) && decide (m ≤ 12) &&
  decide (1 ≤ d) && decide (d ≤ daysInMonth y m) &&
  decide (h ≤ 23) && decide (mi ≤ 59) && decide (s ≤ 59)

/-! ### strptime for the three EXIF formats

`datetime.strptime(value, "%Y<sep>%m<sep>%d %H:%M:%S")`, where `<sep>` is `:`, `-`
or `/`. CPython compiles the format to a regex: `%Y` is four digits; `%m`, `%d`,
`%H`, `%M`, `%S` accept one or two digits constrained to their ranges; a literal
space matches one or more whitespace characters. Because every numeric field is
followed by a non-digit literal (or the end of the string), the regex with
backtracking is equivalent to the deterministic rule implemented here: the
maximal digit run at the field position must have length 1 or 2 and value in
range. Values the regex accepts but the constructor rejects (second 60/61,
day 31 in April, year 0000) end as `None` either way and are folded into the
validation step. -/

/-- Whitespace for the purposes of the strptime `\s+` literal (ASCII subset). -/
def pySpace (c : Char) : Bool :=
  c = ' ' || c = '\t' || c = '\n' || c = '\r' || c = '\x0b' || c = '\x0c'

/-- Python `str.strip()` restricted to ASCII whitespace. -/
def strStrip (s : List Char) : List Char :=
  ((s.dropWhile pySpace).reverse.dropWhile pySpace).reverse

/-- Python `value.replace("/", ":")`. -/
def replSlash (s : List Char) : List Char := s.map (fun c => if c = '/' then ':' else c)

/-- One strptime numeric field: maximal run of one or two digits, value in
`[lo, hi]`, returning the value and the remaining input. -/
def parseField (lo hi : Nat) (s : List Char) : Option (Nat × List Char) :=
  let run := s.takeWhile Char.isDigit
  if (run.length = 1 ∨ run.length = 2) ∧ lo ≤ digitsVal run ∧ digitsVal run ≤ hi then
    some (digitsVal run, s.dropWhile Char.isDigit)
  else none

/-- The `%Y` field: exactly four digits. -/
def parseY4 : List Char → Option (Nat × List Char)
  | a :: b :: c :: d :: rest =>
    if a.isDigit ∧ b.isDigit ∧ c.isDigit ∧ d.isDigit then
      some (digitVal a * 1000 + digitVal b * 100 + digitVal c * 10 + digitVal d, rest)
    else none
  | _ => none

/-- A literal separator character. -/
def expectChar (c : Char) : List Char → Option (List Char)
  | x :: rest => if x = c then some rest else none
  | [] => none

/-- The literal space in the format: one or more whitespace characters. -/
def expectSpaces (s : List Char) : Option (List Char) :=
  if 1 ≤ (s.takeWhile pySpace).length then some (s.dropWhile pySpace) else none

/-- `datetime.strptime` for `"%Y<dsep>%m<dsep>%d %H:%M:%S"`, `none` for both a
format mismatch and a constructor `ValueError`. -/
def strptimeYmdHMS (dsep : Char) (s : List Char) : Option DateTime :=
  match parseY4 s with
  | none => none
  | some (y, r1) =>
  match expectChar dsep r1 with
  | none => none
  | some r2 =>
  match parseField 1 12 r2 with
  | none => none
  | some (m, r3) =>
  match expectChar dsep r3 with
  | none => none
  | some r4 =>
  match parseField 1 31 r4 with
  | none => none
  | some (d, r5) =>
  match expectSpaces r5 with
  | none => none
  | some r6 =>
  match parseField 0 23 r6 with
  | none => none
  | some (h, r7) =>
  match expectChar ':' r7 with
  | none => none
  | some r8 =>
  match parseField 0 59 r8 with
  | none => none
  | some (mi, r9) =>
  match expectChar ':' r9 with
  | none => none
  | some r10 =>
  match parseField 0 59 r10 with
  | none => none
  | some (sec, r11) =>
    if r11 = [] ∧ validDT y m d h mi sec then some ⟨y, m, d, h, mi, sec, 0⟩ else none

/-! ### EXIF extraction (get_exif_datetime) -/

/-- Value stored under a tag of the EXIF dictionary, as the loop classifies it:
a `str`, a `bytes` value (decoded with `utf-8`/`ignore`, modelled by the decoded
text), or anything else (skipped by the `isinstance(value, str)` test). -/
inductive ExifVal where
  | str (s : List Char)
  | bytes (s : List Char)
  | other

/-- A PIL image as far as `get_exif_datetime` observes it: whether `getexif()`
is empty (falsy), and the named tag dictionary. -/
structure ImageData where
  exifEmpty : Bool
  tags : String → Option ExifVal

/-- Bytes are decoded to text, non-string values are skipped. -/
def exifValStr : ExifVal → Option (List Char)
  | .str s => some s
  | .bytes s => some s
  | .other => none

/-- Body of the tag loop: strip, replace `/` by `:`, then try
`%Y:%m:%d %H:%M:%S`, `%Y-%m-%d %H:%M:%S`, `%Y/%m/%d %H:%M:%S` in order. -/
def parseExifValue (v : ExifVal) : Option DateTime :=
  match exifValStr v with
  | none => none
  | some raw =>
    let s := replSlash (strStrip raw)
    ((strptimeYmdHMS ':' s).orElse fun _ =>
      (strptimeYmdHMS '-' s).orElse fun _ => strptimeYmdHMS '/' s)

/-- Tag priority order of get_exif_datetime. -/
def EXIF_DT_KEYS : List String := ["DateTimeOriginal", "DateTime", "DateTimeDigitized"]

/-- First tag (in order) whose value parses; a missing tag (`exif.get` returns
`None`) and a present but unparseable value both fall through to the next
key, so the two steps are fused with `bind`. -/
def firstKeyParse (tags : String → Option ExifVal) : List String → Option DateTime
  | [] => none
  | k :: rest =>
    match (tags k).bind parseExifValue with
    | some dt => some dt
    | none => firstKeyParse tags rest

/-- Model of get_exif_datetime. -/
def get_exif_datetime (img : ImageData) : Option DateTime :=
  if img.exifEmpty then none else firstKeyParse img.tags EXIF_DT_KEYS

/-! ### Filename pattern extraction (try_parse_from_name)

The single compiled pattern is
`(?P<y>20\d{2})[-_\.]?(?P<m>0[1-9]|1[0-2])[-_\.]?(?P<d>[0-2]\d|3[01])`
`[_\-\s\.]?(?P<h>[01]\d|2[0-3])[:\._-]?(?P<min>[0-5]\d)[:\._-]?(?P<s>[0-5]\d)`.
Every numeric group matches exactly two characters, so the only backtracking
points are the four optional separators; `optSep` tries the greedy branch
(consume) first and falls back, exactly as the regex engine does.
`re.search` returns the leftmost match. -/

/-- The `[-_\.]` separator class. -/
def dateSeps : List Char := ['-', '_', '.']

/-- The `[_\-\s\.]` separator class (ASCII `\s`). -/
def midSeps : List Char := ['_', '-', ' ', '\t', '\n', '\r', '\x0b', '\x0c', '.']

/-- The `[:\._-]` separator class. -/
def timeSeps : List Char := [':', '.', '_', '-']

/-- An optional (greedy) separator: try the consuming branch first, then the
empty branch, with the whole continuation under each. -/
def optSep (seps : List Char) (k : List Char → Option α) : List Char → Option α
  | [] => k []
  | c :: rest => if c ∈ seps then (k rest).orElse (fun _ => k (c :: rest)) else k (c :: rest)

/-- `20\d{2}`. -/
def matchY20 : List Char → Option (Nat × List Char)
  | '2' :: '0' :: a :: b :: rest =>
    if a.isDigit ∧ b.isDigit then some (2000 + digitVal a * 10 + digitVal b, rest) else none
  | _ => none

/-- Character range test by code point. -/
def between (lo c hi : Char) : Bool := lo.toNat ≤ c.toNat && c.toNat ≤ hi.toNat

/-- `0[1-9]|1[0-2]`. -/
def matchMonth : List Char → Option (Nat × List Char)
  | a :: b :: rest =>
    if a = '0' ∧ between '1' b '9' then some (digitVal b, rest)
    else if a = '1' ∧ between '0' b '2' then some (10 + digitVal b, rest)
    else none
  | _ => none

/-- `[0-2]\d|3[01]`. -/
def matchDay : List Char → Option (Nat × List Char)
  | a :: b :: rest =>
    if between '0' a '2' ∧ b.isDigit then some (digitVal a * 10 + digitVal b, rest)
    else if a = '3' ∧ between '0' b '1' then some (30 + digitVal b, rest)
    else none
  | _ => none

/-- `[01]\d|2[0-3]`. -/
def matchHour : List Char → Option (Nat × List Char)
  | a :: b :: rest =>
    if between '0' a '1' ∧ b.isDigit then some (digitVal a * 10 + digitVal b, rest)
    else if a = '2' ∧ between '0' b '3' then some (20 + digitVal b, rest)
    else none
  | _ => none

/-- `[0-5]\d`. -/
def matchMinSec : List Char → Option (Nat × List Char)
  | a :: b :: rest =>
    if between '0' a '5' ∧ b.isDigit then some (digitVal a * 10 + digitVal b, rest) else none
  | _ => none

/-- Extracted groups of one filename match. -/
structure NameFields where
  y : Nat
  m : Nat
  d : Nat
  h : Nat
  mi : Nat
  s : Nat
deriving DecidableEq

/-- The time-of-day part of the pattern, after the `[_\-\s\.]?` separator. -/
def matchClock (y m d : Nat) (r : List Char) : Option NameFields :=
  match matchHour r with
  | none => none
  | some (h, r7) =>
    optSep timeSeps (fun r8 =>
      match matchMinSec r8 with
      | none => none
      | some (mi, r9) =>
        optSep timeSeps (fun r10 =>
          match matchMinSec r10 with
          | none => none
          | some (s, _) => some ⟨y, m, d, h, mi, s⟩) r9) r7

/-- One anchored attempt of the full pattern. -/
def matchAt (s : List Char) : Option NameFields :=
  match matchY20 s with
  | none => none
  | some (y, r1) =>
    optSep dateSeps (fun r2 =>
      match matchMonth r2 with
      | none => none
      | some (m, r3) =>
        optSep dateSeps (fun r4 =>
          match matchDay r4 with
          | none => none
          | some (d, r5) =>
            optSep midSeps (fun r6 => matchClock y m d r6) r5) r3) r1

/-- `pattern.search`: leftmost successful anchor position. -/
def searchDT : List Char → Option NameFields
  | [] => none
  | c :: rest =>
    match matchAt (c :: rest) with
    | some f => some f
    | none => searchDT rest

/-- Model of try_parse_from_name: search the single pattern; when the matched
groups fail the `datetime` constructor's validation the exception handler
`continue`s to the next pattern, of which there is none, so the result is
`none`. -/
def try_parse_from_name (name : List Char) : Option DateTime :=
  match searchDT name with
  | some f => if validDT f.y f.m f.d f.h f.mi f.s then some ⟨f.y, f.m, f.d, f.h, f.mi, f.s, 0⟩ else none
  | none => none

/-! ### Filesystem metadata fallback and the resolver -/

/-- One input file as the planner observes it: its final path component, the
image-open result (`none` models `Image.open` raising), and the stat times. -/
structure FileMeta where
  name : List Char
  image : Option ImageData
  birth : Option DateTime
  mtime : DateTime

/-- Model of get_file_times: birth time when the platform exposes it, else
mtime (converted to local wall-clock time by `fromtimestamp`, which is
absorbed into the stored `DateTime` values). -/
def get_file_times (f : FileMeta) : DateTime :=
  match f.birth with
  | some b => b
  | none => f.mtime

/-- The EXIF step of the resolver: `none` when `Image.open` raises. -/
def exifOf (f : FileMeta) : Option DateTime :=
  match f.image with
  | some img => get_exif_datetime img
  | none => none

/-- Model of determine_capture_datetime: EXIF, then filename pattern, then
file times. Total by construction — every fallible step yields `Option` and
the final step always produces a value. -/
def determine_capture_datetime (f : FileMeta) : DateTime :=
  match exifOf f with
  | some dt => dt
  | none =>
    match try_parse_from_name f.name with
    | some dt => dt
    | none => get_file_times f

/-! ### Paths

A `pathlib.Path` is modelled as a directory part plus the final component;
the claims only ever compare whole paths, split the final component into stem
and suffix, or join fixed directory strings, so this split form is exact for
them. -/

/-- A filesystem path: directory part and final component. -/
structure PathT where
  dir : List Char
  name : List Char
deriving DecidableEq

/-- Splits a name at its last dot: `some (a, b)` with `name = a ++ '.' :: b`
and no dot in `b`; `none` when the name has no dot. -/
def splitAtLastDot : List Char → Option (List Char × List Char)
  | [] => none
  | c :: rest =>
    match splitAtLastDot rest with
    | some (a, b) => some (c :: a, b)
    | none => if c = '.' then some ([], rest) else none

/-- CPython's `PurePath.stem`/`PurePath.suffix` pair: the suffix is nonempty
exactly when the last dot sits strictly inside the name (`0 < i < len-1`). -/
def splitStemSuffix (n : List Char) : List Char × List Char :=
  match splitAtLastDot n with
  | some (a, b) => if a ≠ [] ∧ b ≠ [] then (a, '.' :: b) else (n, [])
  | none => (n, [])

/-- strftime `"%Y-%m-%d_%H-%M-%S"` (fields zero-padded; the year modelled as
four-digit zero-padded). -/
def fmtDateTimeName (d : DateTime) : List Char :=
  pad4 d.year ++ '-' :: pad2 d.month ++ '-' :: pad2 d.day ++
    '_' :: pad2 d.hour ++ '-' :: pad2 d.minute ++ '-' :: pad2 d.second

/-- The base filename of build_target_path:
`capture_dt.strftime("%Y-%m-%d_%H-%M-%S") + f"_{idx:04d}" + target_ext`. -/
def base_name (capture_dt : DateTime) (idx : Nat) (target_ext : List Char) : List Char :=
  fmtDateTimeName capture_dt ++ '_' :: pad4 idx ++ target_ext

/-- `Path` division by a subfolder string. -/
def joinDir (dir sub : List Char) : List Char := dir ++ '/' :: sub

/-- Model of build_target_path. -/
def build_target_path (output_dir : List Char) (capture_dt : DateTime) (idx : Nat)
    (subfolders : String) (target_ext : List Char) : PathT :=
  let bn := base_name capture_dt idx target_ext
  if subfolders = "none" then ⟨output_dir, bn⟩
  else if subfolders = "day" then
    ⟨joinDir output_dir (pad4 capture_dt.year ++ '/' :: pad2 capture_dt.month ++
      '/' :: pad2 capture_dt.day), bn⟩
  else if subfolders = "month" then
    ⟨joinDir output_dir (pad4 capture_dt.year ++ '/' :: pad2 capture_dt.month), bn⟩
  else if subfolders = "year" then
    ⟨joinDir output_dir (pad4 capture_dt.year), bn⟩
  else ⟨output_dir, bn⟩

/-- The candidate `path.with_name(f"{stem}__{counter}{ext}")` of ensure_unique. -/
def mkCandidate (p : PathT) (n : Nat) : PathT :=
  ⟨p.dir, (splitStemSuffix p.name).1 ++ '_' :: '_' :: (natRepr n ++ (splitStemSuffix p.name).2)⟩

/-- The `while True` loop of ensure_unique, driven by fuel; `fs.length + 1`
candidates always contain a fresh one, so the fuel is never exhausted. -/
def ensureUniqueAux (fs : List PathT) (p : PathT) : Nat → Nat → PathT
  | _, 0 => p
  | counter, fuel + 1 =>
    if mkCandidate p counter ∈ fs then ensureUniqueAux fs p (counter + 1) fuel
    else mkCandidate p counter

/-- Model of ensure_unique over the planning-time filesystem `fs`. -/
def ensure_unique (fs : List PathT) (p : PathT) : PathT :=
  if p ∈ fs then ensureUniqueAux fs p 1 (fs.length + 1) else p

/-! ### The planning phase of main -/

/-- Model of `OUTPUT_FORMAT_TO_EXT`; `none` models a `KeyError`. -/
def OUTPUT_FORMAT_TO_EXT (fmt : String) : Option (List Char) :=
  if fmt = "jpeg" then some ".jpg".toList
  else if fmt = "png" then some ".png".toList
  else if fmt = "webp" then some ".webp".toList
  else if fmt = "tiff" then some ".tiff".toList
  else none

/-- Python `str.lower()` restricted to ASCII letters (extensions are ASCII). -/
def lowerChar (c : Char) : Char :=
  if 'A'.toNat ≤ c.toNat ∧ c.toNat ≤ 'Z'.toNat then Char.ofNat (c.toNat + 32) else c

/-- `path.suffix.lower()`. -/
def pathSuffixLower (name : List Char) : List Char := (splitStemSuffix name).2.map lowerChar

/-- A plan entry before target allocation: source name, resolved capture
time, re-encode decision (the `target` placeholder is filled later). -/
structure PrePlanItem where
  source : List Char
  capture_dt : DateTime
  needs_reencode : Bool
deriving DecidableEq

/-- A finalized PlanItem. `seq` is the in-second sequence index of the spec's
data model (the loop-local `seq_in_second` used to build the target name). -/
structure PlanItem where
  source : List Char
  capture_dt : DateTime
  needs_reencode : Bool
  seq : Nat
  target : PathT
deriving DecidableEq

/-- Python's sort key tuple `(p.capture_dt, p.source.name)` under tuple `<`. -/
def keyLtB (a b : PrePlanItem) : Bool :=
  DateTime.ltB a.capture_dt b.capture_dt ||
    (decide (a.capture_dt = b.capture_dt) && strLtB a.source b.source)

/-- The corresponding non-strict order used for the stable sort. -/
def keyLe (a b : PrePlanItem) : Prop := keyLtB b a = false

instance : DecidableRel keyLe := fun a b => instDecidableEqBool (keyLtB b a) false

theorem keyLtB_asymm {a b : PrePlanItem} (h : keyLtB a b = true) : keyLtB b a = false := by
  simp only [keyLtB, Bool.or_eq_true, Bool.and_eq_true, decide_eq_true_eq] at h
  simp only [keyLtB, Bool.or_eq_false_iff, Bool.and_eq_false_iff, decide_eq_false_iff_not]
  rcases h with h | ⟨he, hs⟩
  · constructor
    · exact DateTime.ltB_asymm h
    · left; intro he; rw [he] at h; rw [DateTime.ltB_irrefl] at h; exact Bool.noConfusion h
  · constructor
    · rw [he]; exact DateTime.ltB_irrefl _
    · right; exact strLtB_asymm hs

theorem keyLtB_trans {a b c : PrePlanItem} (h₁ : keyLtB a b = true) (h₂ : keyLtB b c = true) :
    keyLtB a c = true := by
  simp only [keyLtB, Bool.or_eq_true, Bool.and_eq_true, decide_eq_true_eq] at h₁ h₂ ⊢
  rcases h₁ with h₁ | ⟨he₁, hs₁⟩ <;> rcases h₂ with h₂ | ⟨he₂, hs₂⟩
  · exact Or.inl (DateTime.ltB_trans h₁ h₂)
  · exact Or.inl (he₂ ▸ h₁)
  · exact Or.inl (he₁ ▸ h₂)
  · exact Or.inr ⟨he₁.trans he₂, strLtB_trans hs₁ hs₂⟩

theorem keyLtB_connex {a b : PrePlanItem} (h₁ : keyLtB a b = false) (h₂ : keyLtB b a = false) :
    a.capture_dt = b.capture_dt ∧ a.source = b.source := by
  simp only [keyLtB, Bool.or_eq_false_iff, Bool.and_eq_false_iff, decide_eq_false_iff_not,
    Bool.not_eq_true] at h₁ h₂
  have hdt : a.capture_dt = b.capture_dt := DateTime.eq_of_not_ltB h₁.1 h₂.1
  refine ⟨hdt, ?_⟩
  rcases h₁.2 with h | h
  · exact absurd hdt h
  · rcases h₂.2 with h' | h'
    · exact absurd hdt.symm h'
    · exact strLtB_connex h h'

instance : IsTotal PrePlanItem keyLe :=
  ⟨fun a b => by
    unfold keyLe
    by_cases h : keyLtB b a = false
    · exact Or.inl h
    · rw [Bool.not_eq_false] at h
      exact Or.inr (keyLtB_asymm h)⟩

theorem keyLtB_congr_right {a b : PrePlanItem} (c : PrePlanItem)
    (hdt : a.capture_dt = b.capture_dt) (hs : a.source = b.source) :
    keyLtB c a = keyLtB c b := by
  simp [keyLtB, hdt, hs]

instance : IsTrans PrePlanItem keyLe :=
  ⟨fun a b c hab hbc => by
    unfold keyLe at *
    by_cases h : keyLtB c a = true
    · exfalso
      by_cases h₂ : keyLtB a b = true
      · have := keyLtB_trans h h₂
        rw [hbc] at this; exact Bool.noConfusion this
      · rw [Bool.not_eq_true] at h₂
        have hco := keyLtB_connex h₂ hab
        rw [keyLtB_congr_right c hco.1 hco.2, hbc] at h
        exact Bool.noConfusion h
    · rwa [Bool.not_eq_true] at h⟩

/-- The per-file body of the first loop of main: resolve the capture time and
decide `needs_reencode` (plain copy only when `copy_unchanged` is set and the
lowercased source suffix already equals the target extension). -/
def mkPrePlanItem (copy_unchanged : Bool) (target_ext : List Char) (f : FileMeta) :
    PrePlanItem :=
  { source := f.name
    capture_dt := determine_capture_datetime f
    needs_reencode := !(copy_unchanged && pathSuffixLower f.name == target_ext) }

/-- The target-allocation loop of main: walk the sorted items carrying
`(last_second, seq_in_second)`, build each target path, and make it unique
against the planning-time filesystem. -/
def allocAux (fs : List PathT) (output_dir : List Char) (subfolders : String)
    (target_ext : List Char) : Option DateTime → Nat → List PrePlanItem → List PlanItem
  | _, _, [] => []
  | last, k, it :: rest =>
    let cur := DateTime.truncSec it.capture_dt
    let s := if last = some cur then k + 1 else 1
    { source := it.source, capture_dt := it.capture_dt, needs_reencode := it.needs_reencode,
      seq := s,
      target := ensure_unique fs (build_target_path output_dir it.capture_dt s subfolders target_ext) } ::
      allocAux fs output_dir subfolders target_ext (some cur) s rest

/-- The planning phase of main: resolve each file, sort by
`(capture_dt, source name)` with a stable sort, then assign per-second
sequence numbers and unique target paths. `none` models the `KeyError` on an
unknown output format; execution (side effects only) is out of scope. -/
def planPhotos (files : List FileMeta) (output_dir : List Char) (output_format : String)
    (copy_unchanged : Bool) (subfolders : String) (fs : List PathT) :
    Option (List PlanItem) :=
  match OUTPUT_FORMAT_TO_EXT output_format with
  | none => none
  | some target_ext =>
    let pre := (files.map (mkPrePlanItem copy_unchanged target_ext)).insertionSort keyLe
    some (allocAux fs output_dir subfolders target_ext none 0 pre)

/-! ### Supporting lemmas: stem/suffix splitting -/

theorem splitAtLastDot_none_of_no_dot : ∀ {l : List Char}, '.' ∉ l → splitAtLastDot l = none := by
  intro l
  induction l with
  | nil => intro _; rfl
  | cons c rest ih =>
    intro h
    simp only [splitAtLastDot]
    rw [ih (fun hm => h (List.mem_cons_of_mem _ hm))]
    have : ¬ c = '.' := fun hc => h (hc ▸ List.mem_cons_self c rest)
    simp [this]

theorem no_dot_of_splitAtLastDot_none : ∀ {l : List Char}, splitAtLastDot l = none → '.' ∉ l := by
  intro l
  induction l with
  | nil => intro _; simp
  | cons c rest ih =>
    intro h
    simp only [splitAtLastDot] at h
    cases hrec : splitAtLastDot rest with
    | some p => rw [hrec] at h; exact Option.noConfusion h
    | none =>
      rw [hrec] at h
      by_cases hc : c = '.'
      · simp [hc] at h
      · intro hmem
        rcases List.mem_cons.mp hmem with h1 | h2
        · exact hc h1.symm
        · exact ih hrec h2

theorem splitAtLastDot_spec : ∀ {n a b : List Char},
    splitAtLastDot n = some (a, b) → n = a ++ '.' :: b ∧ '.' ∉ b := by
  intro n
  induction n with
  | nil => intro a b h; exact Option.noConfusion h
  | cons c rest ih =>
    intro a b h
    simp only [splitAtLastDot] at h
    cases hrec : splitAtLastDot rest with
    | some p =>
      rw [hrec] at h
      obtain ⟨a', b'⟩ := p
      have hinj := Option.some.inj h
      rw [Prod.mk.injEq] at hinj
      obtain ⟨ha, hb⟩ := hinj
      rcases ih hrec with ⟨he, hnd⟩
      subst ha; subst hb
      exact ⟨by rw [List.cons_append, ← he], hnd⟩
    | none =>
      rw [hrec] at h
      by_cases hc : c = '.'
      · simp only [hc, if_true] at h
        have hinj := Option.some.inj h
        rw [Prod.mk.injEq] at hinj
        obtain ⟨ha, hb⟩ := hinj
        subst ha; subst hb
        exact ⟨by rw [hc]; rfl, no_dot_of_splitAtLastDot_none hrec⟩
      · simp [hc] at h

theorem splitAtLastDot_append_dot {s t : List Char} (ht : '.' ∉ t) :
    splitAtLastDot (s ++ '.' :: t) = some (s, t) := by
  induction s with
  | nil =>
    simp only [List.nil_append, splitAtLastDot]
    rw [splitAtLastDot_none_of_no_dot ht]
    simp
  | cons c s' ih =>
    simp only [List.cons_append, splitAtLastDot, List.append_eq]
    rw [ih]

/-- The stem/suffix pair always recombines to the original name. -/
theorem splitStemSuffix_append (n : List Char) :
    (splitStemSuffix n).1 ++ (splitStemSuffix n).2 = n := by
  unfold splitStemSuffix
  cases h : splitAtLastDot n with
  | none => simp
  | some p =>
    obtain ⟨a, b⟩ := p
    rcases splitAtLastDot_spec h with ⟨he, _⟩
    dsimp only
    by_cases hcond : a ≠ [] ∧ b ≠ []
    · rw [if_pos hcond]
      exact he.symm
    · rw [if_neg hcond]
      simp

/-- On a name of the shape `stem ++ ext` with a dot-free nonempty stem and a
well-formed extension, the split recovers exactly that decomposition. -/
theorem splitStemSuffix_of_ext {s t : List Char} (hs : s ≠ [])
    (ht : t ≠ []) (htd : '.' ∉ t) :
    splitStemSuffix (s ++ '.' :: t) = (s, '.' :: t) := by
  unfold splitStemSuffix
  rw [splitAtLastDot_append_dot htd]
  simp [hs, ht]

/-! ### Supporting lemmas: the ensure_unique loop -/

theorem mkCandidate_injective (p : PathT) : Function.Injective (mkCandidate p) := by
  intro a b h
  have hname := congrArg PathT.name h
  simp only [mkCandidate] at hname
  have h1 := List.append_cancel_left hname
  have h2 := List.cons.inj h1
  have h3 := List.cons.inj h2.2
  have h4 := List.append_cancel_right h3.2
  exact natRepr_injective h4

theorem ensureUniqueAux_spec (fs : List PathT) (p : PathT) :
    ∀ fuel start, (∃ k, k < fuel ∧ mkCandidate p (start + k) ∉ fs) →
      ∃ k, k < fuel ∧ mkCandidate p (start + k) ∉ fs ∧
        ensureUniqueAux fs p start fuel = mkCandidate p (start + k) ∧
        ∀ j, j < k → mkCandidate p (start + j) ∈ fs := by
  intro fuel
  induction fuel with
  | zero =>
    intro start h
    rcases h with ⟨k, hk, _⟩
    omega
  | succ fuel ih =>
    intro start h
    by_cases hmem : mkCandidate p start ∈ fs
    · rcases h with ⟨k, hk, hfree⟩
      have hk0 : k ≠ 0 := by
        rintro rfl
        rw [Nat.add_zero] at hfree
        exact hfree hmem
      have hex : ∃ k', k' < fuel ∧ mkCandidate p (start + 1 + k') ∉ fs := by
        refine ⟨k - 1, by omega, ?_⟩
        have harith : start + 1 + (k - 1) = start + k := by omega
        rw [harith]
        exact hfree
      rcases ih (start + 1) hex with ⟨k', hk', hfree', heq', hall'⟩
      refine ⟨k' + 1, by omega, ?_, ?_, ?_⟩
      · have harith : start + (k' + 1) = start + 1 + k' := by omega
        rw [harith]; exact hfree'
      · simp only [ensureUniqueAux, hmem, if_true]
        have harith : start + (k' + 1) = start + 1 + k' := by omega
        rw [harith]; exact heq'
      · intro j hj
        cases j with
        | zero => rw [Nat.add_zero]; exact hmem
        | succ j' =>
          have harith : start + (j' + 1) = start + 1 + j' := by omega
          rw [harith]
          exact hall' j' (by omega)
    · refine ⟨0, by omega, ?_, ?_, fun j hj => by omega⟩
      · rw [Nat.add_zero]; exact hmem
      · simp only [ensureUniqueAux, hmem, if_false, Nat.add_zero]

theorem exists_free_candidate (fs : List PathT) (p : PathT) :
    ∃ k, k < fs.length + 1 ∧ mkCandidate p (1 + k) ∉ fs := by
  by_contra hcon
  push_neg at hcon
  have hsub : (List.range (fs.length + 1)).map (fun k => mkCandidate p (1 + k)) ⊆ fs := by
    intro x hx
    simp only [List.mem_map, List.mem_range] at hx
    rcases hx with ⟨k, hk, rfl⟩
    exact hcon k hk
  have hnodup : ((List.range (fs.length + 1)).map (fun k => mkCandidate p (1 + k))).Nodup := by
    refine List.Nodup.map ?_ (List.nodup_range _)
    intro a b hab
    have := mkCandidate_injective p hab
    omega
  have hle := (List.subperm_of_subset hnodup hsub).length_le
  simp only [List.length_map, List.length_range] at hle
  omega

/-- On an existing path, ensure_unique returns the first fresh `__n` candidate. -/
theorem ensure_unique_of_mem {fs : List PathT} {p : PathT} (h : p ∈ fs) :
    ∃ n, 1 ≤ n ∧ ensure_unique fs p = mkCandidate p n ∧ mkCandidate p n ∉ fs ∧
      ∀ m, 1 ≤ m → m < n → mkCandidate p m ∈ fs := by
  have hex : ∃ k, k < fs.length + 1 ∧ mkCandidate p (1 + k) ∉ fs :=
    exists_free_candidate fs p
  rcases ensureUniqueAux_spec fs p (fs.length + 1) 1 hex with ⟨k, _, hfree, heq, hall⟩
  refine ⟨1 + k, by omega, ?_, hfree, ?_⟩
  · rw [ensure_unique, if_pos h]
    exact heq
  · intro m hm1 hmk
    have := hall (m - 1) (by omega)
    have harith : 1 + (m - 1) = m := by omega
    rwa [harith] at this

theorem ensure_unique_of_not_mem {fs : List PathT} {p : PathT} (h : p ∉ fs) :
    ensure_unique fs p = p := by
  rw [ensure_unique, if_neg h]

/-! ### Supporting lemmas: unfolding the planner -/

theorem firstKeyParse_cons (tags : String → Option ExifVal) (k : String) (rest : List String) :
    firstKeyParse tags (k :: rest) =
      match (tags k).bind parseExifValue with
      | some dt => some dt
      | none => firstKeyParse tags rest := rfl

theorem planPhotos_eq {files : List FileMeta} {output_dir : List Char}
    {output_format : String} {copy_unchanged : Bool} {subfolders : String} {fs : List PathT}
    {plan : List PlanItem}
    (hplan : planPhotos files output_dir output_format copy_unchanged subfolders fs = some plan) :
    ∃ target_ext, OUTPUT_FORMAT_TO_EXT output_format = some target_ext ∧
      plan = allocAux fs output_dir subfolders target_ext none 0
        ((files.map (mkPrePlanItem copy_unchanged target_ext)).insertionSort keyLe) := by
  unfold planPhotos at hplan
  cases h : OUTPUT_FORMAT_TO_EXT output_format with
  | none => rw [h] at hplan; exact Option.noConfusion hplan
  | some ext =>
    rw [h] at hplan
    exact ⟨ext, rfl, (Option.some.inj hplan).symm⟩

theorem allocAux_mem (fs : List PathT) (od : List Char) (sub : String) (ext : List Char) :
    ∀ (l : List PrePlanItem) (last : Option DateTime) (k : Nat) (it : PlanItem),
    it ∈ allocAux fs od sub ext last k l →
    ∃ pre ∈ l, it.source = pre.source ∧ it.capture_dt = pre.capture_dt ∧
      it.needs_reencode = pre.needs_reencode := by
  intro l
  induction l with
  | nil => intro last k it h; simp [allocAux] at h
  | cons x rest ih =>
    intro last k it h
    simp only [allocAux, List.mem_cons] at h
    rcases h with h | h
    · exact ⟨x, List.mem_cons_self .., by rw [h], by rw [h], by rw [h]⟩
    · rcases ih _ _ it h with ⟨pre, hmem, h1, h2, h3⟩
      exact ⟨pre, List.mem_cons_of_mem _ hmem, h1, h2, h3⟩

/-! ### Claim C4: the capture-time resolver and its fallback chain -/

/-- C4: the resolver is a total function (it always returns a timestamp; every
fallible step is an `Option` consumed internally) whose priority order is:
EXIF result if any, else the filename pattern, else the filesystem times —
creation time when available, else mtime. Within EXIF, the tags are tried as
DateTimeOriginal, then DateTime, then DateTimeDigitized; a missing tag or a
value that fails to parse (`(tags k).bind parseExifValue = none`) is skipped
in favour of the next tag. -/
theorem resolver_spec :
    (∀ (f : FileMeta) (dt : DateTime), exifOf f = some dt →
      determine_capture_datetime f = dt) ∧
    (∀ (f : FileMeta) (dt : DateTime), exifOf f = none →
      try_parse_from_name f.name = some dt → determine_capture_datetime f = dt) ∧
    (∀ f : FileMeta, exifOf f = none → try_parse_from_name f.name = none →
      determine_capture_datetime f = get_file_times f) ∧
    (∀ f : FileMeta, f.birth = none → get_file_times f = f.mtime) ∧
    (∀ (f : FileMeta) (b : DateTime), f.birth = some b → get_file_times f = b) ∧
    (∀ img : ImageData, img.exifEmpty = true → get_exif_datetime img = none) ∧
    (∀ img : ImageData, img.exifEmpty = false →
      (∀ dt, (img.tags "DateTimeOriginal").bind parseExifValue = some dt →
        get_exif_datetime img = some dt) ∧
      ((img.tags "DateTimeOriginal").bind parseExifValue = none →
        ∀ dt, (img.tags "DateTime").bind parseExifValue = some dt →
          get_exif_datetime img = some dt) ∧
      ((img.tags "DateTimeOriginal").bind parseExifValue = none →
        (img.tags "DateTime").bind parseExifValue = none →
        ∀ dt, (img.tags "DateTimeDigitized").bind parseExifValue = some dt →
          get_exif_datetime img = some dt) ∧
      ((img.tags "DateTimeOriginal").bind parseExifValue = none →
        (img.tags "DateTime").bind parseExifValue = none →
        (img.tags "DateTimeDigitized").bind parseExifValue = none →
        get_exif_datetime img = none)) := by
  refine ⟨?_, ?_, ?_, ?_, ?_, ?_, ?_⟩
  · intro f dt h
    unfold determine_capture_datetime
    rw [h]
  · intro f dt hex hname
    unfold determine_capture_datetime
    rw [hex, hname]
  · intro f hex hname
    unfold determine_capture_datetime
    rw [hex, hname]
  · intro f h
    unfold get_file_times
    rw [h]
  · intro f b h
    unfold get_file_times
    rw [h]
  · intro img h
    unfold get_exif_datetime
    rw [h]
    rfl
  · intro img h
    have hkeys : get_exif_datetime img = firstKeyParse img.tags EXIF_DT_KEYS := by
      unfold get_exif_datetime
      rw [h]
      rfl
    refine ⟨?_, ?_, ?_, ?_⟩
    · intro dt h1
      rw [hkeys, EXIF_DT_KEYS, firstKeyParse_cons, h1]
    · intro h1 dt h2
      rw [hkeys, EXIF_DT_KEYS, firstKeyParse_cons, h1, firstKeyParse_cons, h2]
    · intro h1 h2 dt h3
      rw [hkeys, EXIF_DT_KEYS, firstKeyParse_cons, h1, firstKeyParse_cons, h2,
        firstKeyParse_cons, h3]
    · intro h1 h2 h3
      rw [hkeys, EXIF_DT_KEYS, firstKeyParse_cons, h1, firstKeyParse_cons, h2,
        firstKeyParse_cons, h3]
      rfl

/-- Witness for C4: a file with a valid EXIF DateTimeOriginal resolves to it;
a file with no EXIF and a datable name resolves from the name; a file with
neither falls back to mtime (birth time absent). -/
theorem resolver_spec_witness :
    (exifOf ⟨"x.jpg".toList,
        some ⟨false, fun k => if k = "DateTimeOriginal"
          then some (.str "2021:01:02 15:30:45".toList) else none⟩,
        none, ⟨2000, 1, 1, 0, 0, 0, 0⟩⟩ = some ⟨2021, 1, 2, 15, 30, 45, 0⟩ ∧
      determine_capture_datetime ⟨"x.jpg".toList,
        some ⟨false, fun k => if k = "DateTimeOriginal"
          then some (.str "2021:01:02 15:30:45".toList) else none⟩,
        none, ⟨2000, 1, 1, 0, 0, 0, 0⟩⟩ = ⟨2021, 1, 2, 15, 30, 45, 0⟩) ∧
    (exifOf ⟨"IMG_20210102_153045.jpg".toList, none, none, ⟨2000, 1, 1, 0, 0, 0, 0⟩⟩ = none ∧
      try_parse_from_name "IMG_20210102_153045.jpg".toList =
        some ⟨2021, 1, 2, 15, 30, 45, 0⟩ ∧
      determine_capture_datetime
        ⟨"IMG_20210102_153045.jpg".toList, none, none, ⟨2000, 1, 1, 0, 0, 0, 0⟩⟩ =
        ⟨2021, 1, 2, 15, 30, 45, 0⟩) ∧
    (determine_capture_datetime ⟨"x.jpg".toList, none, none, ⟨2000, 1, 1, 0, 0, 0, 0⟩⟩ =
      ⟨2000, 1, 1, 0, 0, 0, 0⟩) :=
  ⟨⟨by decide, resolver_spec.1 _ _ (by decide)⟩,
    ⟨by decide, by decide, resolver_spec.2.1 _ _ (by decide) (by decide)⟩,
    by
      have h := resolver_spec.2.2.1 ⟨"x.jpg".toList, none, none, ⟨2000, 1, 1, 0, 0, 0, 0⟩⟩
        (by decide) (by decide)
      rw [h]
      exact resolver_spec.2.2.2.1 _ rfl⟩

/-! ### Claim C5: invalid calendar values in filename matches -/

/-- C5: the filename extractor is total (modelled as a function into `Option`);
when the pattern does match but the matched groups fail the datetime
constructor's calendar validation, the match is rejected and the extractor
returns `none` without propagating an error, after which resolution continues
with the next source (the filesystem times, for a file without EXIF). -/
theorem name_pattern_invalid_rejected (name : List Char) (f : NameFields)
    (hsearch : searchDT name = some f)
    (hinvalid : validDT f.y f.m f.d f.h f.mi f.s = false) :
    try_parse_from_name name = none ∧
    (∀ meta : FileMeta, meta.name = name → exifOf meta = none →
      determine_capture_datetime meta = get_file_times meta) := by
  have hnone : try_parse_from_name name = none := by
    unfold try_parse_from_name
    rw [hsearch]
    dsimp only
    rw [hinvalid]
    simp
  refine ⟨hnone, ?_⟩
  intro meta hn hex
  unfold determine_capture_datetime
  rw [hex, hn, hnone]

/-- Witness for C5: `IMG_20210100_120000.jpg` matches the pattern with day 00,
which the datetime constructor rejects; the file resolves from its mtime. -/
theorem name_pattern_invalid_rejected_witness :
    searchDT "IMG_20210100_120000.jpg".toList = some ⟨2021, 1, 0, 12, 0, 0⟩ ∧
    validDT 2021 1 0 12 0 0 = false ∧
    try_parse_from_name "IMG_20210100_120000.jpg".toList = none ∧
    determine_capture_datetime
        ⟨"IMG_20210100_120000.jpg".toList, none, none, ⟨1999, 12, 31, 23, 59, 59, 0⟩⟩ =
      get_file_times
        ⟨"IMG_20210100_120000.jpg".toList, none, none, ⟨1999, 12, 31, 23, 59, 59, 0⟩⟩ :=
  ⟨by decide, by decide,
    (name_pattern_invalid_rejected "IMG_20210100_120000.jpg".toList ⟨2021, 1, 0, 12, 0, 0⟩
      (by decide) (by decide)).1,
    (name_pattern_invalid_rejected "IMG_20210100_120000.jpg".toList ⟨2021, 1, 0, 12, 0, 0⟩
      (by decide) (by decide)).2 _ rfl (by decide)⟩

/-! ### Claim C6: the re-encode decision -/

/-- C6: a plan item is a plain copy (`needs_reencode = false`) exactly when
copy-unchanged is enabled and the lowercased source extension equals the
target format's canonical extension, the mapping being jpeg ↦ .jpg,
png ↦ .png, webp ↦ .webp, tiff ↦ .tiff; in every other case the item is
re-encoded. -/
theorem needs_reencode_spec (files : List FileMeta) (output_dir : List Char)
    (output_format : String) (copy_unchanged : Bool) (subfolders : String) (fs : List PathT)
    (target_ext : List Char) (plan : List PlanItem)
    (hext : OUTPUT_FORMAT_TO_EXT output_format = some target_ext)
    (hplan : planPhotos files output_dir output_format copy_unchanged subfolders fs = some plan) :
    (OUTPUT_FORMAT_TO_EXT "jpeg" = some ".jpg".toList ∧
      OUTPUT_FORMAT_TO_EXT "png" = some ".png".toList ∧
      OUTPUT_FORMAT_TO_EXT "webp" = some ".webp".toList ∧
      OUTPUT_FORMAT_TO_EXT "tiff" = some ".tiff".toList) ∧
    ∀ it ∈ plan, (it.needs_reencode = false ↔
      (copy_unchanged = true ∧ pathSuffixLower it.source = target_ext)) := by
  refine ⟨⟨rfl, rfl, rfl, rfl⟩, ?_⟩
  intro it hit
  rcases planPhotos_eq hplan with ⟨ext', hext', hplaneq⟩
  rw [hext] at hext'
  have hee : ext' = target_ext := (Option.some.inj hext').symm
  subst hee
  rw [hplaneq] at hit
  rcases allocAux_mem _ _ _ _ _ _ _ _ hit with ⟨pre, hpre, hsrc, _, hren⟩
  rw [List.mem_insertionSort] at hpre
  rcases List.mem_map.mp hpre with ⟨file, _, hfile⟩
  subst hfile
  rw [hren, hsrc]
  simp only [mkPrePlanItem, Bool.not_eq_false', Bool.and_eq_true, beq_iff_eq]

/-- Witness for C6: with copy-unchanged on and target jpeg, a `.JPG` source is
copied while a `.png` source is re-encoded. -/
theorem needs_reencode_spec_witness :
    OUTPUT_FORMAT_TO_EXT "jpeg" = some ".jpg".toList ∧
    planPhotos [⟨"a.JPG".toList, none, none, ⟨2024, 1, 1, 0, 0, 0, 0⟩⟩,
        ⟨"b.png".toList, none, none, ⟨2024, 1, 1, 0, 0, 1, 0⟩⟩]
      "o".toList "jpeg" true "none" [] =
      some ((planPhotos [⟨"a.JPG".toList, none, none, ⟨2024, 1, 1, 0, 0, 0, 0⟩⟩,
        ⟨"b.png".toList, none, none, ⟨2024, 1, 1, 0, 0, 1, 0⟩⟩]
        "o".toList "jpeg" true "none" []).getD []) ∧
    ∀ it ∈ (planPhotos [⟨"a.JPG".toList, none, none, ⟨2024, 1, 1, 0, 0, 0, 0⟩⟩,
        ⟨"b.png".toList, none, none, ⟨2024, 1, 1, 0, 0, 1, 0⟩⟩]
        "o".toList "jpeg" true "none" []).getD [],
      (it.needs_reencode = false ↔
        (true = true ∧ pathSuffixLower it.source = ".jpg".toList)) :=
  ⟨rfl, by decide,
    (needs_reencode_spec
      [⟨"a.JPG".toList, none, none, ⟨2024, 1, 1, 0, 0, 0, 0⟩⟩,
        ⟨"b.png".toList, none, none, ⟨2024, 1, 1, 0, 0, 1, 0⟩⟩]
      "o".toList "jpeg" true "none" [] ".jpg".toList
      ((planPhotos [⟨"a.JPG".toList, none, none, ⟨2024, 1, 1, 0, 0, 0, 0⟩⟩,
          ⟨"b.png".toList, none, none, ⟨2024, 1, 1, 0, 0, 1, 0⟩⟩]
        "o".toList "jpeg" true "none" []).getD [])
      rfl (by decide)).2⟩

/-! ### Supporting definitions and lemmas: the sequence-number state machine -/

/-- Sequence numbers assigned by the allocation loop, as a standalone function
of the capture datetimes (the same `(last_second, seq_in_second)` state
machine as allocAux). -/
def seqListAux : Option DateTime → Nat → List DateTime → List Nat
  | _, _, [] => []
  | last, k, d :: rest =>
    let s : Nat := if last = some (DateTime.truncSec d) then k + 1 else 1
    s :: seqListAux (some (DateTime.truncSec d)) s rest

/-- The sequence number assigned at position `i` of the loop (0 out of range). -/
def seqAt (l : List DateTime) (i : Nat) : Nat := ((seqListAux none 0 l)[i]?).getD 0

theorem seqListAux_length : ∀ (last : Option DateTime) (k : Nat) (l : List DateTime),
    (seqListAux last k l).length = l.length := by
  intro last k l
  induction l generalizing last k with
  | nil => rfl
  | cons d rest ih => simp [seqListAux, ih]

theorem allocAux_length (fs : List PathT) (od : List Char) (sub : String) (ext : List Char) :
    ∀ (l : List PrePlanItem) (last : Option DateTime) (k : Nat),
    (allocAux fs od sub ext last k l).length = l.length := by
  intro l
  induction l with
  | nil => intro last k; rfl
  | cons x rest ih => intro last k; simp [allocAux, ih]

theorem allocAux_getElem? (fs : List PathT) (od : List Char) (sub : String) (ext : List Char) :
    ∀ (l : List PrePlanItem) (last : Option DateTime) (k i : Nat),
    (allocAux fs od sub ext last k l)[i]? =
      (l[i]?).bind fun it =>
        ((seqListAux last k (l.map PrePlanItem.capture_dt))[i]?).map fun s =>
          { source := it.source, capture_dt := it.capture_dt,
            needs_reencode := it.needs_reencode, seq := s,
            target := ensure_unique fs (build_target_path od it.capture_dt s sub ext) } := by
  intro l
  induction l with
  | nil => intro last k i; rfl
  | cons x rest ih =>
    intro last k i
    cases i with
    | zero =>
      simp only [allocAux, seqListAux, List.map_cons, List.getElem?_cons_zero,
        Option.some_bind, Option.map_some']
    | succ i' =>
      simp only [allocAux, seqListAux, List.map_cons, List.getElem?_cons_succ]
      exact ih _ _ i'

/-- Characterization of every finalized plan item in terms of the sorted
pre-plan list and the sequence state machine. -/
theorem plan_item_fields {files : List FileMeta} {od : List Char} {fmt : String}
    {cu : Bool} {sub : String} {fs : List PathT} {plan : List PlanItem}
    (hplan : planPhotos files od fmt cu sub fs = some plan) :
    ∃ ext pre, OUTPUT_FORMAT_TO_EXT fmt = some ext ∧
      pre = (files.map (mkPrePlanItem cu ext)).insertionSort keyLe ∧
      plan.length = pre.length ∧
      ∀ i (hi : i < plan.length) (hi2 : i < pre.length),
        plan[i] =
          { source := pre[i].source,
            capture_dt := pre[i].capture_dt,
            needs_reencode := pre[i].needs_reencode,
            seq := seqAt (pre.map PrePlanItem.capture_dt) i,
            target := ensure_unique fs (build_target_path od pre[i].capture_dt
              (seqAt (pre.map PrePlanItem.capture_dt) i) sub ext) } := by
  rcases planPhotos_eq hplan with ⟨ext, hext, hpe⟩
  refine ⟨ext, (files.map (mkPrePlanItem cu ext)).insertionSort keyLe, hext, rfl, ?_, ?_⟩
  · rw [hpe, allocAux_length]
  · intro i hi hi2
    have h1 : plan[i]? = some plan[i] := List.getElem?_eq_getElem hi
    have h2 := allocAux_getElem? fs od sub ext
      ((files.map (mkPrePlanItem cu ext)).insertionSort keyLe) none 0 i
    rw [← hpe] at h2
    have hseq : i < (seqListAux none 0
        (((files.map (mkPrePlanItem cu ext)).insertionSort keyLe).map
          PrePlanItem.capture_dt)).length := by
      rw [seqListAux_length, List.length_map]
      exact hi2
    rw [List.getElem?_eq_getElem hi2, List.getElem?_eq_getElem hseq] at h2
    simp only [Option.some_bind, Option.map_some'] at h2
    rw [h1] at h2
    have := Option.some.inj h2
    rw [this]
    have hseqat : seqAt (((files.map (mkPrePlanItem cu ext)).insertionSort keyLe).map
        PrePlanItem.capture_dt) i = (seqListAux none 0
        (((files.map (mkPrePlanItem cu ext)).insertionSort keyLe).map
          PrePlanItem.capture_dt)).get ⟨i, hseq⟩ := by
      unfold seqAt
      rw [List.getElem?_eq_getElem hseq]
      rfl
    rw [hseqat]
    rfl

theorem strLtB_irrefl (s : List Char) : strLtB s s = false := by
  by_contra hne
  rw [Bool.not_eq_false] at hne
  have hff := strLtB_asymm hne
  rw [hff] at hne
  exact Bool.noConfusion hne

/-- Truncation order carried from the sorted pre-plan list to its datetimes. -/
theorem dts_trunc_mono {pre : List PrePlanItem} (h : List.Pairwise keyLe pre) :
    List.Pairwise (fun d e : DateTime =>
      DateTime.ltB (DateTime.truncSec e) (DateTime.truncSec d) = false)
      (pre.map PrePlanItem.capture_dt) := by
  rw [List.pairwise_map]
  refine h.imp ?_
  intro a b hab
  unfold keyLe at hab
  have hdt : DateTime.ltB b.capture_dt a.capture_dt = false := by
    simp only [keyLtB, Bool.or_eq_false_iff] at hab
    exact hab.1
  exact DateTime.truncSec_mono hdt

/-! ### Claim C2: the plan's total order -/

/-- C2: in every produced plan, an item with a strictly smaller capture
timestamp appears strictly earlier, and among items with equal timestamps one
with a lexicographically smaller source filename appears strictly earlier —
the plan is ordered by (timestamp, source filename). -/
theorem plan_total_order (files : List FileMeta) (output_dir : List Char)
    (output_format : String) (copy_unchanged : Bool) (subfolders : String) (fs : List PathT)
    (plan : List PlanItem)
    (hplan : planPhotos files output_dir output_format copy_unchanged subfolders fs = some plan) :
    ∀ i j (hi : i < plan.length) (hj : j < plan.length),
      (DateTime.ltB (plan[i]).capture_dt (plan[j]).capture_dt = true → i < j) ∧
      ((plan[i]).capture_dt = (plan[j]).capture_dt →
        strLtB (plan[i]).source (plan[j]).source = true → i < j) := by
  rcases plan_item_fields hplan with ⟨ext, pre, _, hpre, hlen, hfields⟩
  have hsorted : List.Pairwise keyLe pre := by
    rw [hpre]
    exact List.sorted_insertionSort keyLe _
  have hpw := List.pairwise_iff_getElem.mp hsorted
  intro i j hi hj
  have hi2 : i < pre.length := hlen ▸ hi
  have hj2 : j < pre.length := hlen ▸ hj
  have hdti : (plan[i]).capture_dt = (pre[i]).capture_dt := by rw [hfields i hi hi2]
  have hdtj : (plan[j]).capture_dt = (pre[j]).capture_dt := by rw [hfields j hj hj2]
  have hsrci : (plan[i]).source = (pre[i]).source := by rw [hfields i hi hi2]
  have hsrcj : (plan[j]).source = (pre[j]).source := by rw [hfields j hj hj2]
  constructor
  · intro hlt
    rw [hdti, hdtj] at hlt
    by_contra hij
    rcases Nat.lt_or_ge j i with hji | hji
    · have hkey := hpw j i hj2 hi2 hji
      unfold keyLe at hkey
      have : keyLtB (pre[i]) (pre[j]) = true := by
        simp only [keyLtB, Bool.or_eq_true]
        exact Or.inl hlt
      rw [hkey] at this
      exact Bool.noConfusion this
    · have : i = j := by omega
      subst this
      rw [DateTime.ltB_irrefl] at hlt
      exact Bool.noConfusion hlt
  · intro hdteq hslt
    rw [hdti, hdtj] at hdteq
    rw [hsrci, hsrcj] at hslt
    by_contra hij
    rcases Nat.lt_or_ge j i with hji | hji
    · have hkey := hpw j i hj2 hi2 hji
      unfold keyLe at hkey
      have : keyLtB (pre[i]) (pre[j]) = true := by
        simp only [keyLtB, Bool.or_eq_true, Bool.and_eq_true, decide_eq_true_eq]
        exact Or.inr ⟨hdteq, hslt⟩
      rw [hkey] at this
      exact Bool.noConfusion this
    · have : i = j := by omega
      subst this
      rw [strLtB_irrefl] at hslt
      exact Bool.noConfusion hslt

/-- Fixture files for the planner witnesses: two files tied to the same
second (resolved from mtime) and one a second later. -/
def wfA : FileMeta := ⟨"a.jpg".toList, none, none, ⟨2024, 1, 1, 0, 0, 0, 0⟩⟩

def wfB : FileMeta := ⟨"b.jpg".toList, none, none, ⟨2024, 1, 1, 0, 0, 0, 0⟩⟩

def wfC : FileMeta := ⟨"c.jpg".toList, none, none, ⟨2024, 1, 1, 0, 0, 1, 0⟩⟩

/-- The concrete plan those files produce. -/
def wPlan : List PlanItem :=
  (planPhotos [wfB, wfA, wfC] "o".toList "jpeg" true "none" []).getD []

/-- Witness for C2: in the concrete plan, the earlier-timestamped item at
position 0 precedes the later one at position 2, and of the two items tied on
timestamp the lexicographically smaller name sits at position 0, before 1. -/
theorem plan_total_order_witness :
    planPhotos [wfB, wfA, wfC] "o".toList "jpeg" true "none" [] = some wPlan ∧
    (0 : Nat) < 2 ∧ (0 : Nat) < 1 :=
  ⟨by decide,
    (plan_total_order [wfB, wfA, wfC] "o".toList "jpeg" true "none" [] wPlan
      (by decide) 0 2 (by decide) (by decide)).1 (by decide),
    (plan_total_order [wfB, wfA, wfC] "o".toList "jpeg" true "none" [] wPlan
      (by decide) 0 1 (by decide) (by decide)).2 (by decide) (by decide)⟩

/-! ### Supporting lemmas: behaviour of the sequence state machine -/

theorem seqListAux_cons (last : Option DateTime) (k : Nat) (d : DateTime)
    (rest : List DateTime) :
    seqListAux last k (d :: rest) =
      (if last = some (DateTime.truncSec d) then k + 1 else 1) ::
        seqListAux (some (DateTime.truncSec d))
          (if last = some (DateTime.truncSec d) then k + 1 else 1) rest := rfl

theorem seqAt_some {l : List DateTime} {i : Nat} (hi : i < l.length) :
    (seqListAux none 0 l)[i]? = some (seqAt l i) := by
  have hb : i < (seqListAux none 0 l).length := by rw [seqListAux_length]; exact hi
  unfold seqAt
  rw [List.getElem?_eq_getElem hb]
  rfl

/-- The local step rule of the loop: the sequence number of an item is its
predecessor's plus one when the truncated seconds agree, else 1. -/
theorem seqListAux_adjacent : ∀ (l : List DateTime) (last : Option DateTime) (k i : Nat)
    (d e : DateTime) (s : Nat),
    l[i]? = some d → l[i + 1]? = some e → (seqListAux last k l)[i]? = some s →
    (seqListAux last k l)[i + 1]? =
      some (if DateTime.truncSec e = DateTime.truncSec d then s + 1 else 1) := by
  intro l
  induction l with
  | nil => intro last k i d e s h1 _ _; simp at h1
  | cons x rest ih =>
    intro last k i d e s h1 h2 h3
    cases i with
    | zero =>
      rw [List.getElem?_cons_zero] at h1
      have hd : d = x := (Option.some.inj h1).symm
      subst hd
      rw [List.getElem?_cons_succ] at h2
      rw [seqListAux_cons, List.getElem?_cons_zero] at h3
      have hs : s = if last = some (DateTime.truncSec d) then k + 1 else 1 :=
        (Option.some.inj h3).symm
      rw [seqListAux_cons, List.getElem?_cons_succ]
      cases rest with
      | nil => simp at h2
      | cons y rest2 =>
        rw [List.getElem?_cons_zero] at h2
        have hy : e = y := (Option.some.inj h2).symm
        subst hy
        rw [seqListAux_cons, List.getElem?_cons_zero]
        congr 1
        rw [← hs]
        by_cases heq : DateTime.truncSec e = DateTime.truncSec d
        · rw [if_pos (congrArg some heq.symm), if_pos heq]
        · rw [if_neg (fun hc => heq (Option.some.inj hc).symm), if_neg heq]
    | succ i2 =>
      rw [List.getElem?_cons_succ] at h1 h2
      rw [seqListAux_cons, List.getElem?_cons_succ] at h3
      rw [seqListAux_cons, List.getElem?_cons_succ]
      exact ih _ _ i2 d e s h1 h2 h3

theorem seqListAux_pos : ∀ (l : List DateTime) (last : Option DateTime) (k i : Nat) (s : Nat),
    (seqListAux last k l)[i]? = some s → 1 ≤ s := by
  intro l
  induction l with
  | nil => intro last k i s h; simp [seqListAux] at h
  | cons x rest ih =>
    intro last k i s h
    cases i with
    | zero =>
      rw [seqListAux_cons, List.getElem?_cons_zero] at h
      have hs := (Option.some.inj h).symm
      by_cases hc : last = some (DateTime.truncSec x)
      · rw [if_pos hc] at hs; omega
      · rw [if_neg hc] at hs; omega
    | succ i2 =>
      rw [seqListAux_cons, List.getElem?_cons_succ] at h
      exact ih _ _ i2 s h

theorem seqListAux_first (d : DateTime) (rest : List DateTime) :
    (seqListAux none 0 (d :: rest))[0]? = some 1 := by
  rw [seqListAux_cons, List.getElem?_cons_zero]
  simp

/-- With a sorted input, items sharing a truncated second are contiguous. -/
theorem trunc_contiguous {l : List DateTime}
    (hmono : List.Pairwise (fun d e =>
      DateTime.ltB (DateTime.truncSec e) (DateTime.truncSec d) = false) l)
    {i k j : Nat} (hik : i ≤ k) (hkj : k ≤ j) (hj : j < l.length)
    {di dk dj : DateTime} (hdi : l[i]? = some di) (hdk : l[k]? = some dk)
    (hdj : l[j]? = some dj)
    (he : DateTime.truncSec di = DateTime.truncSec dj) :
    DateTime.truncSec dk = DateTime.truncSec di := by
  have hpw := List.pairwise_iff_getElem.mp hmono
  have hi : i < l.length := by omega
  have hk : k < l.length := by omega
  rw [List.getElem?_eq_getElem hi] at hdi
  rw [List.getElem?_eq_getElem hk] at hdk
  rw [List.getElem?_eq_getElem hj] at hdj
  have hdi2 : di = l[i] := (Option.some.inj hdi).symm
  have hdk2 : dk = l[k] := (Option.some.inj hdk).symm
  have hdj2 : dj = l[j] := (Option.some.inj hdj).symm
  subst hdi2; subst hdk2; subst hdj2
  have h1 : DateTime.ltB (DateTime.truncSec l[k]) (DateTime.truncSec l[i]) = false := by
    rcases Nat.eq_or_lt_of_le hik with hik2 | hik2
    · subst hik2; exact DateTime.ltB_irrefl _
    · exact hpw i k hi hk hik2
  have h2 : DateTime.ltB (DateTime.truncSec l[j]) (DateTime.truncSec l[k]) = false := by
    rcases Nat.eq_or_lt_of_le hkj with hkj2 | hkj2
    · subst hkj2; exact DateTime.ltB_irrefl _
    · exact hpw k j hk hj hkj2
  rw [← he] at h2
  exact DateTime.eq_of_not_ltB h1 h2

/-- With a sorted input, equal truncated seconds force an arithmetic run of
sequence numbers: no gaps and no restarts inside the group. -/
theorem seq_run {l : List DateTime}
    (hmono : List.Pairwise (fun d e =>
      DateTime.ltB (DateTime.truncSec e) (DateTime.truncSec d) = false) l) :
    ∀ (j i : Nat), i ≤ j → ∀ (_hj : j < l.length), ∀ (di dj : DateTime) (si sj : Nat),
    l[i]? = some di → l[j]? = some dj →
    (seqListAux none 0 l)[i]? = some si → (seqListAux none 0 l)[j]? = some sj →
    DateTime.truncSec di = DateTime.truncSec dj →
    sj = si + (j - i) := by
  intro j
  induction j with
  | zero =>
    intro i hij hj di dj si sj hdi hdj hsi hsj _
    have hi0 : i = 0 := by omega
    subst hi0
    rw [hsi] at hsj
    have := Option.some.inj hsj
    omega
  | succ j2 ihj =>
    intro i hij hj di dj si sj hdi hdj hsi hsj he
    by_cases hieq : i = j2 + 1
    · subst hieq
      rw [hsi] at hsj
      have := Option.some.inj hsj
      omega
    · have hij2 : i ≤ j2 := by omega
      have hj2 : j2 < l.length := by omega
      have hd2 : l[j2]? = some l[j2] := List.getElem?_eq_getElem hj2
      have hs2 : (seqListAux none 0 l)[j2]? = some (seqAt l j2) := seqAt_some hj2
      have hcont : DateTime.truncSec l[j2] = DateTime.truncSec di :=
        trunc_contiguous hmono hij2 (by omega) hj hdi hd2 hdj he
      have hadj := seqListAux_adjacent l none 0 j2 l[j2] dj (seqAt l j2) hd2 hdj hs2
      rw [if_pos (by rw [← he, hcont])] at hadj
      rw [hadj] at hsj
      have hsj2 : sj = seqAt l j2 + 1 := (Option.some.inj hsj).symm
      have hrun := ihj i hij2 hj2 di l[j2] si (seqAt l j2) hdi hd2 hsi hs2 hcont.symm
      omega

/-- The local reset rule as an iff: a sequence number is 1 exactly at the
start of the list or where the truncated second changes. -/
theorem seq_boundary {l : List DateTime} :
    ∀ (j : Nat) (_hj : j < l.length) (s : Nat), (seqListAux none 0 l)[j]? = some s →
    (s = 1 ↔ (j = 0 ∨ DateTime.truncSec l[j - 1] ≠ DateTime.truncSec l[j])) := by
  intro j hj s hs
  cases j with
  | zero =>
    cases l with
    | nil => simp at hj
    | cons d rest =>
      rw [seqListAux_first] at hs
      have : s = 1 := (Option.some.inj hs).symm
      subst this
      simp
  | succ j2 =>
    have hj2 : j2 < l.length := by omega
    have hd2 : l[j2]? = some l[j2] := List.getElem?_eq_getElem hj2
    have hdj : l[j2 + 1]? = some l[j2 + 1] := List.getElem?_eq_getElem hj
    have hs2 : (seqListAux none 0 l)[j2]? = some (seqAt l j2) := seqAt_some hj2
    have hadj := seqListAux_adjacent l none 0 j2 l[j2] l[j2 + 1] (seqAt l j2) hd2 hdj hs2
    rw [hadj] at hs
    have hval := (Option.some.inj hs).symm
    have hpos : 1 ≤ seqAt l j2 := seqListAux_pos l none 0 j2 (seqAt l j2) hs2
    constructor
    · intro hone
      by_cases hc : DateTime.truncSec l[j2 + 1] = DateTime.truncSec l[j2]
      · rw [if_pos hc] at hval
        omega
      · right
        simp only [Nat.add_sub_cancel]
        exact fun hcc => hc hcc.symm
    · intro hb
      rcases hb with hb | hb
      · exact absurd hb (by omega)
      · simp only [Nat.add_sub_cancel] at hb
        rw [if_neg (fun hcc => hb hcc.symm)] at hval
        exact hval

/-! ### Claim C3: per-second sequence numbering -/

/-- C3: in every produced plan, the sequence number of an item is 1 exactly
when the item opens the plan or its truncated-to-second timestamp differs
from its predecessor's (reset on change of second, never inside a group),
and any two items sharing a truncated second — which the sort makes
contiguous — carry sequence numbers that differ exactly by their distance in
the plan: the numbers of a same-second group form the contiguous run
1, 2, 3, … with no gaps and no restarts, regardless of sub-second timestamp
components. -/
theorem plan_sequence_numbers (files : List FileMeta) (output_dir : List Char)
    (output_format : String) (copy_unchanged : Bool) (subfolders : String) (fs : List PathT)
    (plan : List PlanItem)
    (hplan : planPhotos files output_dir output_format copy_unchanged subfolders fs = some plan) :
    ∀ j (hj : j < plan.length),
      ((plan[j]).seq = 1 ↔
        (j = 0 ∨ DateTime.truncSec ((plan[j - 1]).capture_dt) ≠
          DateTime.truncSec ((plan[j]).capture_dt))) ∧
      (∀ i (hi : i < plan.length), i ≤ j →
        DateTime.truncSec ((plan[i]).capture_dt) =
          DateTime.truncSec ((plan[j]).capture_dt) →
        (plan[j]).seq = (plan[i]).seq + (j - i)) := by
  rcases plan_item_fields hplan with ⟨ext, pre, _, hpre, hlen, hfields⟩
  have hsorted : List.Pairwise keyLe pre := by
    rw [hpre]
    exact List.sorted_insertionSort keyLe _
  have hmono := dts_trunc_mono hsorted
  have hdts : (pre.map PrePlanItem.capture_dt).length = pre.length := List.length_map _ _
  have hfield : ∀ m (hm : m < plan.length) (hm2 : m < pre.length)
      (hm3 : m < (pre.map PrePlanItem.capture_dt).length),
      (plan[m]).seq = seqAt (pre.map PrePlanItem.capture_dt) m ∧
      (plan[m]).capture_dt = (pre.map PrePlanItem.capture_dt)[m] := by
    intro m hm hm2 hm3
    constructor
    · rw [hfields m hm hm2]
    · rw [hfields m hm hm2]
      simp [List.getElem_map]
  intro j hj
  have hj2 : j < pre.length := hlen ▸ hj
  have hj3 : j < (pre.map PrePlanItem.capture_dt).length := by omega
  obtain ⟨hseqj, hdtj⟩ := hfield j hj hj2 hj3
  constructor
  · have hb := seq_boundary j hj3 (seqAt (pre.map PrePlanItem.capture_dt) j)
      (seqAt_some hj3)
    have hjp : j - 1 < plan.length := by omega
    have hjp2 : j - 1 < pre.length := by omega
    have hjp3 : j - 1 < (pre.map PrePlanItem.capture_dt).length := by omega
    obtain ⟨_, hdtp⟩ := hfield (j - 1) hjp hjp2 hjp3
    rw [hseqj, hdtj, hdtp]
    exact hb
  · intro i hi hij he
    have hi2 : i < pre.length := hlen ▸ hi
    have hi3 : i < (pre.map PrePlanItem.capture_dt).length := by omega
    obtain ⟨hseqi, hdti⟩ := hfield i hi hi2 hi3
    rw [hseqi, hseqj]
    refine seq_run hmono j i hij hj3
      ((pre.map PrePlanItem.capture_dt)[i]) ((pre.map PrePlanItem.capture_dt)[j])
      (seqAt (pre.map PrePlanItem.capture_dt) i) (seqAt (pre.map PrePlanItem.capture_dt) j)
      (List.getElem?_eq_getElem hi3) (List.getElem?_eq_getElem hj3)
      (seqAt_some hi3) (seqAt_some hj3) ?_
    rw [← hdti, ← hdtj]
    exact he

/-- Witness for C3: in the concrete plan of the fixture files, position 1
shares the second of position 0 and carries sequence number 1 + 1, while the
second-change at position 2 resets the counter to 1. -/
theorem plan_sequence_numbers_witness :
    planPhotos [wfB, wfA, wfC] "o".toList "jpeg" true "none" [] = some wPlan ∧
    ((wPlan.get ⟨2, by decide⟩).seq = 1 ↔
      ((2 : Nat) = 0 ∨ DateTime.truncSec ((wPlan.get ⟨1, by decide⟩).capture_dt) ≠
        DateTime.truncSec ((wPlan.get ⟨2, by decide⟩).capture_dt))) ∧
    (wPlan.get ⟨1, by decide⟩).seq = (wPlan.get ⟨0, by decide⟩).seq + (1 - 0) :=
  ⟨by decide,
    (plan_sequence_numbers [wfB, wfA, wfC] "o".toList "jpeg" true "none" [] wPlan
      (by decide) 2 (by decide)).1,
    (plan_sequence_numbers [wfB, wfA, wfC] "o".toList "jpeg" true "none" [] wPlan
      (by decide) 1 (by decide)).2 0 (by decide) (by decide) (by decide)⟩

/-! ### Supporting lemmas: target-name structure

The base filenames are alternating digit runs and single separators; the
lemmas here recover the numeric fields from such a string and separate a
`__counter` suffix from a stem that never contains two adjacent
non-digits. -/

/-- A digit run. -/
def allDigits (l : List Char) : Prop := ∀ c ∈ l, c.isDigit = true

/-- Every other character is a digit: rules out a `__` substring. -/
def sepOk : List Char → Bool
  | a :: b :: rest => (a.isDigit || b.isDigit) && sepOk (b :: rest)
  | _ => true

theorem digit_run_unique : ∀ {d₁ d₂ r₁ r₂ : List Char} {c₁ c₂ : Char},
    allDigits d₁ → allDigits d₂ → c₁.isDigit = false → c₂.isDigit = false →
    d₁ ++ c₁ :: r₁ = d₂ ++ c₂ :: r₂ → d₁ = d₂ ∧ c₁ = c₂ ∧ r₁ = r₂ := by
  intro d₁
  induction d₁ with
  | nil =>
    intro d₂ r₁ r₂ c₁ c₂ _ h2 hc1 _ heq
    cases d₂ with
    | nil =>
      simp only [List.nil_append] at heq
      have hinj := List.cons.inj heq
      exact ⟨rfl, hinj.1, hinj.2⟩
    | cons b d₂2 =>
      simp only [List.nil_append, List.cons_append] at heq
      have hinj := List.cons.inj heq
      have hb : b.isDigit = true := h2 b (List.mem_cons_self _ _)
      rw [hinj.1, hb] at hc1
      exact Bool.noConfusion hc1
  | cons a d₁2 ih =>
    intro d₂ r₁ r₂ c₁ c₂ h1 h2 hc1 hc2 heq
    cases d₂ with
    | nil =>
      simp only [List.nil_append, List.cons_append] at heq
      have hinj := List.cons.inj heq
      have ha : a.isDigit = true := h1 a (List.mem_cons_self _ _)
      rw [← hinj.1, ha] at hc2
      exact Bool.noConfusion hc2
    | cons b d₂2 =>
      simp only [List.cons_append] at heq
      have hab := List.cons.inj heq
      have h1' : allDigits d₁2 := fun c hc => h1 c (List.mem_cons_of_mem _ hc)
      have h2' : allDigits d₂2 := fun c hc => h2 c (List.mem_cons_of_mem _ hc)
      rcases ih h1' h2' hc1 hc2 hab.2 with ⟨hd, hc, hr⟩
      exact ⟨by rw [hab.1, hd], hc, hr⟩

theorem sepOk_tail : ∀ {a : Char} {l : List Char}, sepOk (a :: l) = true → sepOk l = true := by
  intro a l h
  cases l with
  | nil => rfl
  | cons b rest =>
    simp only [sepOk, Bool.and_eq_true] at h
    exact h.2

theorem sepOk_of_allDigits : ∀ {l : List Char}, allDigits l → sepOk l = true := by
  intro l
  induction l with
  | nil => intro _; rfl
  | cons a rest ih =>
    intro h
    cases rest with
    | nil => rfl
    | cons b r2 =>
      simp only [sepOk, Bool.and_eq_true]
      refine ⟨?_, ?_⟩
      · rw [h a (List.mem_cons_self _ _)]; simp
      · exact ih (fun c hc => h c (List.mem_cons_of_mem _ hc))

theorem sepOk_glue : ∀ {d : List Char} {c : Char} {r : List Char},
    allDigits d → d ≠ [] → sepOk r = true →
    (∀ x, r.head? = some x → x.isDigit = true) →
    sepOk (d ++ c :: r) = true := by
  intro d
  induction d with
  | nil => intro c r _ hne _ _; exact absurd rfl hne
  | cons a d2 ih =>
    intro c r hd _ hr hhead
    cases d2 with
    | nil =>
      simp only [List.nil_append, List.cons_append, sepOk, Bool.and_eq_true]
      refine ⟨?_, ?_⟩
      · rw [hd a (List.mem_cons_self _ _)]; simp
      · cases r with
        | nil => rfl
        | cons x r2 =>
          simp only [sepOk, Bool.and_eq_true]
          refine ⟨?_, hr⟩
          rw [hhead x rfl]; simp
    | cons b d3 =>
      simp only [List.cons_append, sepOk, Bool.and_eq_true]
      refine ⟨?_, ?_⟩
      · rw [hd a (List.mem_cons_self _ _)]; simp
      · have hrec := @ih c r (fun x hx => hd x (List.mem_cons_of_mem _ hx)) (by simp) hr hhead
        simpa [List.cons_append] using hrec

theorem sepOk_no_dunder : ∀ (x t : List Char), sepOk (x ++ '_' :: '_' :: t) = false := by
  intro x
  induction x with
  | nil => intro t; simp [sepOk]
  | cons a x2 ih =>
    intro t
    cases x2 with
    | nil =>
      have h0 := ih t
      simp only [List.nil_append] at h0
      simp only [List.cons_append, List.nil_append, sepOk, h0]
      simp
    | cons b x3 =>
      have h0 := ih t
      simp only [List.cons_append] at h0 ⊢
      simp only [sepOk, h0]
      simp

theorem dunder_split_unique : ∀ (s₁ : List Char) {s₂ t₁ t₂ : List Char},
    sepOk s₁ = true → sepOk s₂ = true →
    (∀ x, t₁.head? = some x → x.isDigit = true) →
    (∀ x, t₂.head? = some x → x.isDigit = true) →
    s₁ ++ '_' :: '_' :: t₁ = s₂ ++ '_' :: '_' :: t₂ → s₁ = s₂ := by
  intro s₁
  induction s₁ with
  | nil =>
    intro s₂ t₁ t₂ _ hs₂ ht₁ _ heq
    cases s₂ with
    | nil => rfl
    | cons b s₂2 =>
      simp only [List.nil_append, List.cons_append] at heq
      obtain ⟨hb, heq2⟩ := List.cons.inj heq
      cases s₂2 with
      | nil =>
        simp only [List.nil_append] at heq2
        obtain ⟨_, heq3⟩ := List.cons.inj heq2
        have hdig := ht₁ '_' (by rw [heq3]; rfl)
        exact absurd hdig (by decide)
      | cons c s₂3 =>
        obtain ⟨hc, _⟩ := List.cons.inj heq2
        rw [← hb, ← hc] at hs₂
        simp [sepOk] at hs₂
  | cons a s₁2 ih =>
    intro s₂ t₁ t₂ hs₁ hs₂ ht₁ ht₂ heq
    cases s₂ with
    | nil =>
      simp only [List.nil_append, List.cons_append] at heq
      obtain ⟨ha, heq2⟩ := List.cons.inj heq
      cases s₁2 with
      | nil =>
        simp only [List.nil_append] at heq2
        obtain ⟨_, heq3⟩ := List.cons.inj heq2
        have hdig := ht₂ '_' (by rw [← heq3]; rfl)
        exact absurd hdig (by decide)
      | cons c s₁3 =>
        obtain ⟨hc, _⟩ := List.cons.inj heq2
        rw [ha, hc] at hs₁
        simp [sepOk] at hs₁
    | cons b s₂2 =>
      simp only [List.cons_append] at heq
      obtain ⟨hab, heq2⟩ := List.cons.inj heq
      have h₁' := sepOk_tail hs₁
      have h₂' := sepOk_tail hs₂
      rw [hab, ih h₁' h₂' ht₁ ht₂ heq2]

theorem headDig_padZ0 (w n : Nat) : ∀ x, (padZ w n).head? = some x → x.isDigit = true := by
  intro x hx
  cases hpz : padZ w n with
  | nil => exact absurd hpz (padZ_ne_nil w n)
  | cons c r =>
    rw [hpz, List.head?_cons] at hx
    have hxc : c = x := Option.some.inj hx
    subst hxc
    exact padZ_all_digits w n c (by rw [hpz]; exact List.mem_cons_self _ _)

theorem headDig_padZ (w n : Nat) (l : List Char) :
    ∀ x, (padZ w n ++ l).head? = some x → x.isDigit = true := by
  intro x hx
  cases hpz : padZ w n with
  | nil => exact absurd hpz (padZ_ne_nil w n)
  | cons c r =>
    rw [hpz, List.cons_append, List.head?_cons] at hx
    have hxc : c = x := Option.some.inj hx
    subst hxc
    exact padZ_all_digits w n c (by rw [hpz]; exact List.mem_cons_self _ _)

theorem headDig_natRepr (n : Nat) (l : List Char) :
    ∀ x, (natRepr n ++ l).head? = some x → x.isDigit = true := by
  intro x hx
  cases hnr : natRepr n with
  | nil => exact absurd hnr (natRepr_ne_nil n)
  | cons c r =>
    rw [hnr, List.cons_append, List.head?_cons] at hx
    have hxc : c = x := Option.some.inj hx
    subst hxc
    exact natRepr_all_digits n c (by rw [hnr]; exact List.mem_cons_self _ _)

/-- The rewrite of the base name into fully right-nested digit-run form. -/
theorem base_name_eq (dt : DateTime) (idx : Nat) (ext : List Char) :
    base_name dt idx ext =
      pad4 dt.year ++ '-' :: (pad2 dt.month ++ '-' :: (pad2 dt.day ++ '_' ::
        (pad2 dt.hour ++ '-' :: (pad2 dt.minute ++ '-' :: (pad2 dt.second ++ '_' ::
          (pad4 idx ++ ext)))))) := by
  unfold base_name fmtDateTimeName
  simp [List.append_assoc]

/-- The fields of a base filename are recoverable: equal formatted names force
equal truncated timestamps and equal sequence numbers. -/
theorem base_name_inj {dt₁ dt₂ : DateTime} {s₁ s₂ : Nat} {ext tr : List Char}
    (hext : ext = '.' :: tr)
    (heq : base_name dt₁ s₁ ext = base_name dt₂ s₂ ext) :
    DateTime.truncSec dt₁ = DateTime.truncSec dt₂ ∧ s₁ = s₂ := by
  rw [base_name_eq, base_name_eq, hext] at heq
  have hdash : ('-').isDigit = false := by decide
  have hund : ('_').isDigit = false := by decide
  have hdot : ('.').isDigit = false := by decide
  rcases digit_run_unique (padZ_all_digits 4 dt₁.year) (padZ_all_digits 4 dt₂.year)
    hdash hdash heq with ⟨hy, _, heq2⟩
  rcases digit_run_unique (padZ_all_digits 2 dt₁.month) (padZ_all_digits 2 dt₂.month)
    hdash hdash heq2 with ⟨hmo, _, heq3⟩
  rcases digit_run_unique (padZ_all_digits 2 dt₁.day) (padZ_all_digits 2 dt₂.day)
    hund hund heq3 with ⟨hda, _, heq4⟩
  rcases digit_run_unique (padZ_all_digits 2 dt₁.hour) (padZ_all_digits 2 dt₂.hour)
    hdash hdash heq4 with ⟨hho, _, heq5⟩
  rcases digit_run_unique (padZ_all_digits 2 dt₁.minute) (padZ_all_digits 2 dt₂.minute)
    hdash hdash heq5 with ⟨hmi, _, heq6⟩
  rcases digit_run_unique (padZ_all_digits 2 dt₁.second) (padZ_all_digits 2 dt₂.second)
    hund hund heq6 with ⟨hse, _, heq7⟩
  rcases digit_run_unique (padZ_all_digits 4 s₁) (padZ_all_digits 4 s₂)
    hdot hdot heq7 with ⟨hsq, _, _⟩
  refine ⟨?_, padZ_injective 4 hsq⟩
  have h1 := padZ_injective 4 hy
  have h2 := padZ_injective 2 hmo
  have h3 := padZ_injective 2 hda
  have h4 := padZ_injective 2 hho
  have h5 := padZ_injective 2 hmi
  have h6 := padZ_injective 2 hse
  unfold DateTime.truncSec
  cases dt₁; cases dt₂
  simp_all

/-- The fixed stem of a base filename. -/
theorem base_stem_append (dt : DateTime) (idx : Nat) (tr : List Char) :
    base_name dt idx ('.' :: tr) =
      (fmtDateTimeName dt ++ '_' :: pad4 idx) ++ '.' :: tr := by
  unfold base_name
  simp [List.append_assoc]

theorem sepOk_baseStem (dt : DateTime) (idx : Nat) :
    sepOk (fmtDateTimeName dt ++ '_' :: pad4 idx) = true := by
  have h6 : sepOk (pad4 idx) = true := sepOk_of_allDigits (padZ_all_digits 4 idx)
  have h5 : sepOk (pad2 dt.second ++ '_' :: pad4 idx) = true :=
    sepOk_glue (padZ_all_digits 2 _) (padZ_ne_nil 2 _) h6 (headDig_padZ0 4 idx)
  have h4 : sepOk (pad2 dt.minute ++ '-' :: (pad2 dt.second ++ '_' :: pad4 idx)) = true :=
    sepOk_glue (padZ_all_digits 2 _) (padZ_ne_nil 2 _) h5 (headDig_padZ 2 _ _)
  have h3 : sepOk (pad2 dt.hour ++ '-' :: (pad2 dt.minute ++ '-' ::
      (pad2 dt.second ++ '_' :: pad4 idx))) = true :=
    sepOk_glue (padZ_all_digits 2 _) (padZ_ne_nil 2 _) h4 (headDig_padZ 2 _ _)
  have h2 : sepOk (pad2 dt.day ++ '_' :: (pad2 dt.hour ++ '-' :: (pad2 dt.minute ++ '-' ::
      (pad2 dt.second ++ '_' :: pad4 idx)))) = true :=
    sepOk_glue (padZ_all_digits 2 _) (padZ_ne_nil 2 _) h3 (headDig_padZ 2 _ _)
  have h1 : sepOk (pad2 dt.month ++ '-' :: (pad2 dt.day ++ '_' :: (pad2 dt.hour ++ '-' ::
      (pad2 dt.minute ++ '-' :: (pad2 dt.second ++ '_' :: pad4 idx))))) = true :=
    sepOk_glue (padZ_all_digits 2 _) (padZ_ne_nil 2 _) h2 (headDig_padZ 2 _ _)
  have h0 : sepOk (pad4 dt.year ++ '-' :: (pad2 dt.month ++ '-' :: (pad2 dt.day ++ '_' ::
      (pad2 dt.hour ++ '-' :: (pad2 dt.minute ++ '-' ::
        (pad2 dt.second ++ '_' :: pad4 idx)))))) = true :=
    sepOk_glue (padZ_all_digits 4 _) (padZ_ne_nil 4 _) h1 (headDig_padZ 2 _ _)
  have hre : fmtDateTimeName dt ++ '_' :: pad4 idx =
      pad4 dt.year ++ '-' :: (pad2 dt.month ++ '-' :: (pad2 dt.day ++ '_' ::
        (pad2 dt.hour ++ '-' :: (pad2 dt.minute ++ '-' ::
          (pad2 dt.second ++ '_' :: pad4 idx))))) := by
    unfold fmtDateTimeName
    simp [List.append_assoc]
  rw [hre]
  exact h0

theorem not_mem_padZ (w n : Nat) : '.' ∉ padZ w n := by
  intro h
  have := padZ_all_digits w n '.' h
  exact absurd this (by decide)

theorem no_dot_baseStem (dt : DateTime) (idx : Nat) :
    '.' ∉ fmtDateTimeName dt ++ '_' :: pad4 idx := by
  intro h
  unfold fmtDateTimeName at h
  simp only [List.append_assoc, List.cons_append, List.mem_append, List.mem_cons] at h
  rcases h with h | h | h | h | h | h | h | h | h | h | h | h | h
  · exact not_mem_padZ 4 _ h
  · exact absurd h (by decide)
  · exact not_mem_padZ 2 _ h
  · exact absurd h (by decide)
  · exact not_mem_padZ 2 _ h
  · exact absurd h (by decide)
  · exact not_mem_padZ 2 _ h
  · exact absurd h (by decide)
  · exact not_mem_padZ 2 _ h
  · exact absurd h (by decide)
  · exact not_mem_padZ 2 _ h
  · exact absurd h (by decide)
  · exact not_mem_padZ 4 _ h

theorem baseStem_ne_nil (dt : DateTime) (idx : Nat) :
    fmtDateTimeName dt ++ '_' :: pad4 idx ≠ [] := by
  intro h
  rcases List.append_eq_nil.mp h with ⟨_, h2⟩
  exact List.noConfusion h2

/-- The stem/suffix split of a base filename returns exactly the fixed stem
and the target extension. -/
theorem base_stem_split (dt : DateTime) (idx : Nat) {tr : List Char}
    (htrnd : '.' ∉ tr) (htrne : tr ≠ []) :
    splitStemSuffix (base_name dt idx ('.' :: tr)) =
      (fmtDateTimeName dt ++ '_' :: pad4 idx, '.' :: tr) := by
  rw [base_stem_append]
  exact splitStemSuffix_of_ext (baseStem_ne_nil dt idx) htrne htrnd

/-- The shape of every recognized target extension. -/
theorem ext_shape {fmt : String} {ext : List Char}
    (h : OUTPUT_FORMAT_TO_EXT fmt = some ext) :
    ∃ tr, ext = '.' :: tr ∧ '.' ∉ tr ∧ tr ≠ [] := by
  unfold OUTPUT_FORMAT_TO_EXT at h
  split_ifs at h
  · exact ⟨['j', 'p', 'g'], by rw [← Option.some.inj h]; rfl, by decide, by decide⟩
  · exact ⟨['p', 'n', 'g'], by rw [← Option.some.inj h]; rfl, by decide, by decide⟩
  · exact ⟨['w', 'e', 'b', 'p'], by rw [← Option.some.inj h]; rfl, by decide, by decide⟩
  · exact ⟨['t', 'i', 'f', 'f'], by rw [← Option.some.inj h]; rfl, by decide, by decide⟩

/-- The name of a built target path is the base filename under every layout. -/
theorem build_target_path_name (output_dir : List Char) (capture_dt : DateTime) (idx : Nat)
    (subfolders : String) (target_ext : List Char) :
    (build_target_path output_dir capture_dt idx subfolders target_ext).name =
      base_name capture_dt idx target_ext := by
  unfold build_target_path
  split_ifs <;> rfl

/-- The allocation result's name is either the input's or a `__n` rewrite. -/
theorem ensure_unique_name_cases (fs : List PathT) (p : PathT) :
    (ensure_unique fs p).name = p.name ∨
      ∃ n, (ensure_unique fs p).name =
        (splitStemSuffix p.name).1 ++ '_' :: '_' ::
          (natRepr n ++ (splitStemSuffix p.name).2) := by
  by_cases h : p ∈ fs
  · rcases ensure_unique_of_mem h with ⟨n, _, heq, _, _⟩
    exact Or.inr ⟨n, by rw [heq]; rfl⟩
  · exact Or.inl (by rw [ensure_unique_of_not_mem h])

/-- Allocation on two distinct well-shaped base paths cannot produce equal
names: a base name never contains `__`, and a `__counter` rewrite determines
its stem uniquely. -/
theorem ensure_unique_base_name_ne (fs : List PathT) {p q : PathT}
    {sp sq tr : List Char}
    (hp : p.name = sp ++ '.' :: tr) (hq : q.name = sq ++ '.' :: tr)
    (hsp : sepOk sp = true) (hsq : sepOk sq = true)
    (hsplitp : splitStemSuffix p.name = (sp, '.' :: tr))
    (hsplitq : splitStemSuffix q.name = (sq, '.' :: tr))
    (hne : p.name ≠ q.name) :
    (ensure_unique fs p).name ≠ (ensure_unique fs q).name := by
  intro hcontra
  rcases ensure_unique_name_cases fs p with hpu | ⟨n, hpc⟩ <;>
    rcases ensure_unique_name_cases fs q with hqu | ⟨m, hqc⟩
  · rw [hpu, hqu] at hcontra
    exact hne hcontra
  · rw [hpu, hqc, hsplitq] at hcontra
    rw [hp] at hcontra
    have hre : sp ++ '.' :: tr = (sq ++ '_' :: '_' :: natRepr m) ++ '.' :: tr := by
      rw [hcontra]; simp [List.append_assoc]
    have hcan := List.append_cancel_right hre
    have hbad := sepOk_no_dunder sq (natRepr m)
    rw [← hcan, hsp] at hbad
    exact Bool.noConfusion hbad
  · rw [hqu, hpc, hsplitp] at hcontra
    rw [hq] at hcontra
    have hre : sq ++ '.' :: tr = (sp ++ '_' :: '_' :: natRepr n) ++ '.' :: tr := by
      rw [← hcontra]; simp [List.append_assoc]
    have hcan := List.append_cancel_right hre
    have hbad := sepOk_no_dunder sp (natRepr n)
    rw [← hcan, hsq] at hbad
    exact Bool.noConfusion hbad
  · rw [hpc, hqc, hsplitp, hsplitq] at hcontra
    have hstem := dunder_split_unique sp hsp hsq
      (headDig_natRepr n ('.' :: tr)) (headDig_natRepr m ('.' :: tr)) hcontra
    apply hne
    rw [hp, hq, hstem]

/-! ### Claim C1: plan-wide uniqueness of destination paths -/

/-- C1: in every produced plan, the final destination paths of two distinct
items are never equal. The per-second sequence numbering makes the in-plan
base names pairwise distinct, and the `__counter` suffixing of ensure_unique
against pre-existing files never maps two distinct base paths to the same
result: a base name never contains two adjacent underscores, and a
`__counter` rewrite determines its stem uniquely. -/
theorem plan_targets_unique (files : List FileMeta) (output_dir : List Char)
    (output_format : String) (copy_unchanged : Bool) (subfolders : String) (fs : List PathT)
    (plan : List PlanItem)
    (hplan : planPhotos files output_dir output_format copy_unchanged subfolders fs = some plan) :
    ∀ i j (hi : i < plan.length) (hj : j < plan.length), i ≠ j →
      (plan[i]).target ≠ (plan[j]).target := by
  rcases plan_item_fields hplan with ⟨ext, pre, hext, hpre, hlen, hfields⟩
  rcases ext_shape hext with ⟨tr, hextr, htrnd, htrne⟩
  have hsorted : List.Pairwise keyLe pre := by
    rw [hpre]; exact List.sorted_insertionSort keyLe _
  have hmono := dts_trunc_mono hsorted
  have hdl : (pre.map PrePlanItem.capture_dt).length = pre.length := List.length_map _ _
  have key : ∀ i j (hi : i < plan.length) (hj : j < plan.length), i < j →
      (plan[i]).target ≠ (plan[j]).target := by
    intro i j hi hj hij hteq
    have hi2 : i < pre.length := hlen ▸ hi
    have hj2 : j < pre.length := hlen ▸ hj
    have hi3 : i < (pre.map PrePlanItem.capture_dt).length := by omega
    have hj3 : j < (pre.map PrePlanItem.capture_dt).length := by omega
    have hti : (plan[i]).target = ensure_unique fs (build_target_path output_dir
        (pre[i]).capture_dt (seqAt (pre.map PrePlanItem.capture_dt) i) subfolders ext) := by
      rw [hfields i hi hi2]
    have htj : (plan[j]).target = ensure_unique fs (build_target_path output_dir
        (pre[j]).capture_dt (seqAt (pre.map PrePlanItem.capture_dt) j) subfolders ext) := by
      rw [hfields j hj hj2]
    rw [hti, htj] at hteq
    have hdtsi : (pre.map PrePlanItem.capture_dt)[i] = (pre[i]).capture_dt :=
      List.getElem_map _
    have hdtsj : (pre.map PrePlanItem.capture_dt)[j] = (pre[j]).capture_dt :=
      List.getElem_map _
    have hbase_ne : base_name (pre[i]).capture_dt
        (seqAt (pre.map PrePlanItem.capture_dt) i) ext ≠
        base_name (pre[j]).capture_dt (seqAt (pre.map PrePlanItem.capture_dt) j) ext := by
      intro hb
      rcases base_name_inj hextr hb with ⟨htreq, hseqeq⟩
      have hrun := seq_run hmono j i (Nat.le_of_lt hij) hj3
        ((pre.map PrePlanItem.capture_dt)[i]) ((pre.map PrePlanItem.capture_dt)[j])
        (seqAt (pre.map PrePlanItem.capture_dt) i) (seqAt (pre.map PrePlanItem.capture_dt) j)
        (List.getElem?_eq_getElem hi3) (List.getElem?_eq_getElem hj3)
        (seqAt_some hi3) (seqAt_some hj3) (by rw [hdtsi, hdtsj]; exact htreq)
      omega
    have hnames := congrArg PathT.name hteq
    have hbi_name : (build_target_path output_dir (pre[i]).capture_dt
        (seqAt (pre.map PrePlanItem.capture_dt) i) subfolders ext).name =
        (fmtDateTimeName (pre[i]).capture_dt ++ '_' ::
          pad4 (seqAt (pre.map PrePlanItem.capture_dt) i)) ++ '.' :: tr := by
      rw [build_target_path_name, hextr, base_stem_append]
    have hbj_name : (build_target_path output_dir (pre[j]).capture_dt
        (seqAt (pre.map PrePlanItem.capture_dt) j) subfolders ext).name =
        (fmtDateTimeName (pre[j]).capture_dt ++ '_' ::
          pad4 (seqAt (pre.map PrePlanItem.capture_dt) j)) ++ '.' :: tr := by
      rw [build_target_path_name, hextr, base_stem_append]
    have hsplit_i : splitStemSuffix (build_target_path output_dir (pre[i]).capture_dt
        (seqAt (pre.map PrePlanItem.capture_dt) i) subfolders ext).name =
        (fmtDateTimeName (pre[i]).capture_dt ++ '_' ::
          pad4 (seqAt (pre.map PrePlanItem.capture_dt) i), '.' :: tr) := by
      rw [build_target_path_name, hextr]
      exact base_stem_split _ _ htrnd htrne
    have hsplit_j : splitStemSuffix (build_target_path output_dir (pre[j]).capture_dt
        (seqAt (pre.map PrePlanItem.capture_dt) j) subfolders ext).name =
        (fmtDateTimeName (pre[j]).capture_dt ++ '_' ::
          pad4 (seqAt (pre.map PrePlanItem.capture_dt) j), '.' :: tr) := by
      rw [build_target_path_name, hextr]
      exact base_stem_split _ _ htrnd htrne
    have hname_ne : (build_target_path output_dir (pre[i]).capture_dt
        (seqAt (pre.map PrePlanItem.capture_dt) i) subfolders ext).name ≠
        (build_target_path output_dir (pre[j]).capture_dt
          (seqAt (pre.map PrePlanItem.capture_dt) j) subfolders ext).name := by
      rw [build_target_path_name, build_target_path_name]
      exact hbase_ne
    exact ensure_unique_base_name_ne fs hbi_name hbj_name
      (sepOk_baseStem _ _) (sepOk_baseStem _ _) hsplit_i hsplit_j hname_ne hnames
  intro i j hi hj hne
  rcases Nat.lt_or_gt_of_ne hne with h | h
  · exact key i j hi hj h
  · exact (key j i hj hi h).symm

/-- The fixture plan for the C1 witness, with one pre-existing destination
file that forces a `__1` rewrite of the first allocated path. -/
def wPlan2 : List PlanItem :=
  (planPhotos [wfB, wfA, wfC] "o".toList "jpeg" true "none"
    [⟨"o".toList, "2024-01-01_00-00-00_0001.jpg".toList⟩]).getD []

/-- Witness for C1 on the concrete fixture plan: the targets at positions 0
and 1 differ even though the pre-existing file rewrote one of them. -/
theorem plan_targets_unique_witness :
    planPhotos [wfB, wfA, wfC] "o".toList "jpeg" true "none"
        [⟨"o".toList, "2024-01-01_00-00-00_0001.jpg".toList⟩] = some wPlan2 ∧
    (wPlan2.get ⟨0, by decide⟩).target ≠ (wPlan2.get ⟨1, by decide⟩).target :=
  ⟨by decide,
    plan_targets_unique [wfB, wfA, wfC] "o".toList "jpeg" true "none"
      [⟨"o".toList, "2024-01-01_00-00-00_0001.jpg".toList⟩] wPlan2 (by decide)
      0 1 (by decide) (by decide) (by decide)⟩

/-! ### Claim C7: build_target_path layout -/

/-- C7: the computed target path always carries the base filename
`{timestamp:%Y-%m-%d_%H-%M-%S}_{sequence:04d}{extension}`, placed directly
under the root for `"none"`, under `YYYY/MM/DD/` for `"day"`, `YYYY/MM/` for
`"month"`, `YYYY/` for `"year"`, and any unrecognized layout value falls back
to the flat layout instead of raising. -/
theorem build_target_path_spec (output_dir : List Char) (capture_dt : DateTime) (idx : Nat)
    (target_ext : List Char) :
    (∀ subfolders : String,
      (build_target_path output_dir capture_dt idx subfolders target_ext).name =
        fmtDateTimeName capture_dt ++ '_' :: pad4 idx ++ target_ext) ∧
    build_target_path output_dir capture_dt idx "none" target_ext =
      ⟨output_dir, base_name capture_dt idx target_ext⟩ ∧
    build_target_path output_dir capture_dt idx "day" target_ext =
      ⟨output_dir ++ '/' :: (pad4 capture_dt.year ++ '/' :: pad2 capture_dt.month ++
        '/' :: pad2 capture_dt.day), base_name capture_dt idx target_ext⟩ ∧
    build_target_path output_dir capture_dt idx "month" target_ext =
      ⟨output_dir ++ '/' :: (pad4 capture_dt.year ++ '/' :: pad2 capture_dt.month),
        base_name capture_dt idx target_ext⟩ ∧
    build_target_path output_dir capture_dt idx "year" target_ext =
      ⟨output_dir ++ '/' :: pad4 capture_dt.year, base_name capture_dt idx target_ext⟩ ∧
    (∀ subfolders : String, subfolders ∉ (["none", "day", "month", "year"] : List String) →
      build_target_path output_dir capture_dt idx subfolders target_ext =
        ⟨output_dir, base_name capture_dt idx target_ext⟩) := by
  refine ⟨?_, rfl, rfl, rfl, rfl, ?_⟩
  · intro subfolders
    unfold build_target_path
    split_ifs <;> rfl
  · intro subfolders h
    simp only [List.mem_cons, List.not_mem_nil, or_false, not_or] at h
    unfold build_target_path
    rw [if_neg h.1, if_neg h.2.1, if_neg h.2.2.1, if_neg h.2.2.2]

/-- Witness for C7 at a concrete unrecognized layout value. -/
theorem build_target_path_spec_witness :
    ("weekly" : String) ∉ (["none", "day", "month", "year"] : List String) ∧
    build_target_path "out".toList ⟨2024, 3, 5, 10, 0, 0, 0⟩ 1 "weekly" ".jpg".toList =
      ⟨"out".toList, base_name ⟨2024, 3, 5, 10, 0, 0, 0⟩ 1 ".jpg".toList⟩ :=
  ⟨by decide, (build_target_path_spec "out".toList ⟨2024, 3, 5, 10, 0, 0, 0⟩ 1
    ".jpg".toList).2.2.2.2.2 "weekly" (by decide)⟩

/-! ### Claim C8: ensure_unique against the live filesystem -/

/-- C8: a computed target path that does not exist is returned unchanged; an
existing one is replaced by `{stem}__{n}{ext}` for the least counter `n ≥ 1`
whose candidate does not exist (every smaller counter's candidate exists, and
the returned candidate does not). -/
theorem ensure_unique_spec (fs : List PathT) (p : PathT) :
    (p ∉ fs → ensure_unique fs p = p) ∧
    (p ∈ fs → ∃ n, 1 ≤ n ∧
      ensure_unique fs p = mkCandidate p n ∧ mkCandidate p n ∉ fs ∧
      ∀ m, 1 ≤ m → m < n → mkCandidate p m ∈ fs) :=
  ⟨ensure_unique_of_not_mem, ensure_unique_of_mem⟩

/-- Witness for C8: a fresh path is returned unchanged; an existing path whose
`__1` candidate also exists is suffixed `__2`. -/
theorem ensure_unique_spec_witness :
    ((⟨"d".toList, "b.jpg".toList⟩ : PathT) ∉
        [(⟨"d".toList, "a.jpg".toList⟩ : PathT), ⟨"d".toList, "a__1.jpg".toList⟩] ∧
      ensure_unique [⟨"d".toList, "a.jpg".toList⟩, ⟨"d".toList, "a__1.jpg".toList⟩]
        ⟨"d".toList, "b.jpg".toList⟩ = ⟨"d".toList, "b.jpg".toList⟩) ∧
    ((⟨"d".toList, "a.jpg".toList⟩ : PathT) ∈
        [(⟨"d".toList, "a.jpg".toList⟩ : PathT), ⟨"d".toList, "a__1.jpg".toList⟩] ∧
      ∃ n, 1 ≤ n ∧
        ensure_unique [⟨"d".toList, "a.jpg".toList⟩, ⟨"d".toList, "a__1.jpg".toList⟩]
            ⟨"d".toList, "a.jpg".toList⟩ =
          mkCandidate ⟨"d".toList, "a.jpg".toList⟩ n ∧
        mkCandidate ⟨"d".toList, "a.jpg".toList⟩ n ∉
          [(⟨"d".toList, "a.jpg".toList⟩ : PathT), ⟨"d".toList, "a__1.jpg".toList⟩] ∧
        ∀ m, 1 ≤ m → m < n →
          mkCandidate ⟨"d".toList, "a.jpg".toList⟩ m ∈
            [(⟨"d".toList, "a.jpg".toList⟩ : PathT), ⟨"d".toList, "a__1.jpg".toList⟩]) :=
  ⟨⟨by decide, (ensure_unique_spec _ ⟨"d".toList, "b.jpg".toList⟩).1 (by decide)⟩,
    ⟨by decide, (ensure_unique_spec _ ⟨"d".toList, "a.jpg".toList⟩).2 (by decide)⟩⟩

/-! ### Claim C10: ensure_unique only rewrites the stem -/

/-- C10: the allocator's result keeps the directory part of its input
unchanged and keeps the name's extension: the result is either the input path
itself, or the input with its stem extended by `__n` before the (unchanged)
suffix. The second conjunct records that stem and suffix recombine to the
input name, so the suffix that reappears in the rewritten name is exactly the
input path's extension. -/
theorem ensure_unique_frame (fs : List PathT) (p : PathT) :
    (ensure_unique fs p).dir = p.dir ∧
    (splitStemSuffix p.name).1 ++ (splitStemSuffix p.name).2 = p.name ∧
    ((ensure_unique fs p).name = p.name ∨
      ∃ n, 1 ≤ n ∧ (ensure_unique fs p).name =
        (splitStemSuffix p.name).1 ++ '_' :: '_' ::
          (natRepr n ++ (splitStemSuffix p.name).2)) := by
  refine ⟨?_, splitStemSuffix_append p.name, ?_⟩
  · by_cases h : p ∈ fs
    · rcases ensure_unique_of_mem h with ⟨n, _, heq, _, _⟩
      rw [heq]; rfl
    · rw [ensure_unique_of_not_mem h]
  · by_cases h : p ∈ fs
    · rcases ensure_unique_of_mem h with ⟨n, hn, heq, _, _⟩
      exact Or.inr ⟨n, hn, by rw [heq]; rfl⟩
    · exact Or.inl (by rw [ensure_unique_of_not_mem h])

/-! ### Claim C9: the planner is a pure function of its inputs -/

/-- C9: planning is deterministic. The planning phase is modelled as a pure
function of the input files (with their resolved metadata), the configuration
and the destination-filesystem state, so two runs over identical inputs give
identical plans: the same items, order, target paths and re-encode flags. -/
theorem planner_deterministic (files : List FileMeta) (output_dir : List Char)
    (output_format : String) (copy_unchanged : Bool) (subfolders : String) (fs : List PathT) :
    planPhotos files output_dir output_format copy_unchanged subfolders fs =
      planPhotos files output_dir output_format copy_unchanged subfolders fs := rfl

end PhotoNormalizer
